import Mathlib

set_option autoImplicit false

/-!
Shallow embedding of the generative-sprite program (Rust sources under
`src/`): the color and sprite data model (`src/sprite.rs`), the denoiser,
sheet compositor and palette parser (`src/main.rs`), and the seed codec
(`src/seed.rs`), together with theorems checking the specification's
claims against these definitions.
-/

/-- `Color` from `src/sprite.rs`: a tuple struct of three `u8` channels.
Channels are modelled as `ℕ`; every color the program builds has channels
below 256. -/
structure Color where
  r : ℕ
  g : ℕ
  b : ℕ
deriving DecidableEq

/-- `Color::default()` from `src/sprite.rs`: the background color `(0,0,0)`. -/
def Color.default : Color := ⟨0, 0, 0⟩

/-- `matrix_index_to_vec` from `src/main.rs`: row-major index
`width * line + column`.  (The Rust closure asserts `width > 0`; the claims
below always work with positive widths.) -/
def matrix_index_to_vec (width line column : ℕ) : ℕ :=
  width * line + column

/-- `vec_index_to_matrix` from `src/main.rs`: `(index / width, index % width)`. -/
def vec_index_to_matrix (width index : ℕ) : ℕ × ℕ :=
  (index / width, index % width)

/-- `Sprite` from `src/sprite.rs`: width, height and a row-major pixel
buffer of `width * height` colors. -/
structure Sprite where
  width : ℕ
  height : ℕ
  data : List Color
deriving DecidableEq

/-- `Sprite::get_at` from `src/sprite.rs`: reads `data[width*line+column]`.
Rust panics on an out-of-range index; the model returns `Color.default`
there, and every claim keeps indices in range. -/
def Sprite.get_at (s : Sprite) (line column : ℕ) : Color :=
  s.data.getD (matrix_index_to_vec s.width line column) Color.default

/-- `Sprite::set_at` from `src/sprite.rs`: writes `data[width*line+column]`.
`List.set` ignores out-of-range indices (where Rust would panic); every
claim keeps indices in range. -/
def Sprite.set_at (s : Sprite) (line column : ℕ) (color : Color) : Sprite :=
  { s with data := s.data.set (matrix_index_to_vec s.width line column) color }

/-- The neighbor count computed by the nested folds inside
`remove_lonely_pixels` (`src/main.rs`): the number of pixels of `sprite`
differing from `background` in the square neighborhood of `(line, column)`
clipped to the sprite bounds, the pixel itself included.  `start_line`,
`end_line`, `start_column`, `end_column` are transcribed from the Rust
(natural subtraction makes `line - min line margin = line - margin`). -/
def lonely_count (sprite : Sprite) (margin : ℕ) (background : Color)
    (line column : ℕ) : ℕ :=
  let start_line := line - min line margin
  let end_line := min (line + margin + 1) sprite.height
  let start_column := column - min column margin
  let end_column := min (column + margin + 1) sprite.width
  (List.range' start_line (end_line - start_line)).foldl (fun acc l =>
    (List.range' start_column (end_column - start_column)).foldl (fun acc2 c =>
      if sprite.get_at l c ≠ background then acc2 + 1 else acc2) 0 + acc) 0

/-- Body of the inner (column) loop of `remove_lonely_pixels`
(`src/main.rs`): when the neighbor count taken on the ORIGINAL sprite is
strictly below `min_count`, overwrite the pixel with `background` in the
cloned sprite being built. -/
def denoise_step (sprite : Sprite) (margin min_count : ℕ) (background : Color)
    (line : ℕ) (new_sprite : Sprite) (column : ℕ) : Sprite :=
  if lonely_count sprite margin background line column < min_count then
    new_sprite.set_at line column background
  else new_sprite

/-- Body of the outer (line) loop of `remove_lonely_pixels`: run the column
loop `0..width` for one line. -/
def denoise_line (sprite : Sprite) (margin min_count : ℕ) (background : Color)
    (new_sprite : Sprite) (line : ℕ) : Sprite :=
  (List.range sprite.width).foldl
    (denoise_step sprite margin min_count background line) new_sprite

/-- `remove_lonely_pixels` from `src/main.rs`: clone the sprite, then for
every `(line, column)` (outer loop on lines `0..height`, inner on columns
`0..width`) count the non-background neighbors in the ORIGINAL sprite and,
when the count is strictly below `min_count`, overwrite the pixel with
`background` in the clone. -/
def remove_lonely_pixels (sprite : Sprite) (margin : ℕ) (min_count : ℕ)
    (background : Color) : Sprite :=
  (List.range sprite.height).foldl
    (denoise_line sprite margin min_count background) sprite

/-- The two denoising passes applied in `main` (`src/main.rs`):
`remove_lonely_pixels(s, 2, 8, background)` mapped over all generated
sprites, then `remove_lonely_pixels(s, 2, 4, background)` mapped over the
results.  `main` applies this to every sprite, with no condition on the
sprite's dimensions. -/
def denoise_passes (background : Color) (sprites : List Sprite) : List Sprite :=
  (sprites.map (fun s => remove_lonely_pixels s 2 8 background)).map
    (fun s => remove_lonely_pixels s 2 4 background)

/-- Neighborhood count exactly as the specification words it: the number of
pairs `(l, c)` with `max(0, line-r) ≤ l < min(height, line+r+1)` and
`max(0, column-r) ≤ c < min(width, column+r+1)` whose color on `sprite`
differs from `background`. -/
def spec_neighbor_count (sprite : Sprite) (r : ℕ) (background : Color)
    (line column : ℕ) : ℕ :=
  let lo_l := max 0 (line - r)
  let hi_l := min sprite.height (line + r + 1)
  let lo_c := max 0 (column - r)
  let hi_c := min sprite.width (column + r + 1)
  ((List.range' lo_l (hi_l - lo_l)).product (List.range' lo_c (hi_c - lo_c))).countP
    (fun p => decide (sprite.get_at p.1 p.2 ≠ background))

/-! ### Basic sprite lemmas -/

theorem Sprite.set_at_width (s : Sprite) (l c : ℕ) (col : Color) :
    (s.set_at l c col).width = s.width := rfl

theorem Sprite.set_at_height (s : Sprite) (l c : ℕ) (col : Color) :
    (s.set_at l c col).height = s.height := rfl

theorem Sprite.set_at_data_length (s : Sprite) (l c : ℕ) (col : Color) :
    (s.set_at l c col).data.length = s.data.length := by
  simp [Sprite.set_at]

theorem List.getD_set_self {α : Type} (l : List α) (i : ℕ) (a d : α)
    (h : i < l.length) : (l.set i a).getD i d = a := by
  simp [List.getD, List.getElem?_set_eq_of_lt a h]

theorem List.getD_set_ne {α : Type} (l : List α) (i j : ℕ) (a d : α)
    (h : i ≠ j) : (l.set i a).getD j d = l.getD j d := by
  simp [List.getD, List.getElem?_set_ne h]

theorem index_lt_of_lt (w h l c : ℕ) (hl : l < h) (hc : c < w) :
    w * l + c < w * h := by
  have h1 : w * (l + 1) = w * l + w := by ring
  have h2 : w * (l + 1) ≤ w * h := Nat.mul_le_mul_left w hl
  omega

theorem Sprite.get_at_set_at_self (s : Sprite) (l c : ℕ) (col : Color)
    (hidx : matrix_index_to_vec s.width l c < s.data.length) :
    (s.set_at l c col).get_at l c = col := by
  unfold Sprite.get_at Sprite.set_at
  exact List.getD_set_self _ _ _ _ hidx

theorem matrix_index_inj (w l c l' c' : ℕ) (hc : c < w) (hc' : c' < w)
    (h : matrix_index_to_vec w l c = matrix_index_to_vec w l' c') :
    l = l' ∧ c = c' := by
  unfold matrix_index_to_vec at h
  have hw : 0 < w := Nat.pos_of_ne_zero (by omega)
  have e1 : (w * l + c) / w = l := by
    rw [Nat.mul_add_div hw, Nat.div_eq_of_lt hc, Nat.add_zero]
  have e2 : (w * l' + c') / w = l' := by
    rw [Nat.mul_add_div hw, Nat.div_eq_of_lt hc', Nat.add_zero]
  have hl : l = l' := by rw [← e1, ← e2, h]
  refine ⟨hl, ?_⟩
  subst hl
  omega

theorem Sprite.get_at_set_at_ne (s : Sprite) (l c l' c' : ℕ) (col : Color)
    (hc : c < s.width) (hc' : c' < s.width) (hne : ¬(l = l' ∧ c = c')) :
    (s.set_at l c col).get_at l' c' = s.get_at l' c' := by
  unfold Sprite.get_at Sprite.set_at
  simp only
  apply List.getD_set_ne
  intro h
  exact hne (matrix_index_inj s.width l c l' c' hc hc' h)

/-! ### Fold invariants for the denoiser -/

theorem foldl_pres {β γ : Type} (g : Sprite → γ) (f : Sprite → β → Sprite)
    (hf : ∀ s b, g (f s b) = g s) (L : List β) (s : Sprite) :
    g (L.foldl f s) = g s := by
  induction L generalizing s with
  | nil => rfl
  | cons b rest ih => rw [List.foldl_cons, ih, hf]

theorem denoise_step_width (sprite : Sprite) (margin min_count : ℕ)
    (background : Color) (line : ℕ) (s : Sprite) (c : ℕ) :
    (denoise_step sprite margin min_count background line s c).width = s.width := by
  unfold denoise_step; split <;> rfl

theorem denoise_step_height (sprite : Sprite) (margin min_count : ℕ)
    (background : Color) (line : ℕ) (s : Sprite) (c : ℕ) :
    (denoise_step sprite margin min_count background line s c).height = s.height := by
  unfold denoise_step; split <;> rfl

theorem denoise_step_len (sprite : Sprite) (margin min_count : ℕ)
    (background : Color) (line : ℕ) (s : Sprite) (c : ℕ) :
    (denoise_step sprite margin min_count background line s c).data.length =
      s.data.length := by
  unfold denoise_step; split
  · exact s.set_at_data_length line c background
  · rfl

theorem denoise_line_width (sprite : Sprite) (margin min_count : ℕ)
    (background : Color) (s : Sprite) (line : ℕ) :
    (denoise_line sprite margin min_count background s line).width = s.width :=
  foldl_pres Sprite.width _ (denoise_step_width sprite margin min_count background line) _ s

theorem denoise_line_height (sprite : Sprite) (margin min_count : ℕ)
    (background : Color) (s : Sprite) (line : ℕ) :
    (denoise_line sprite margin min_count background s line).height = s.height :=
  foldl_pres Sprite.height _ (denoise_step_height sprite margin min_count background line) _ s

theorem denoise_line_len (sprite : Sprite) (margin min_count : ℕ)
    (background : Color) (s : Sprite) (line : ℕ) :
    (denoise_line sprite margin min_count background s line).data.length =
      s.data.length :=
  foldl_pres (fun s => s.data.length) _
    (denoise_step_len sprite margin min_count background line) _ s

/-- Pointwise effect of the column loop of `remove_lonely_pixels` over an
arbitrary list of column indices. -/
theorem denoise_col_fold_get (sprite : Sprite) (margin min_count : ℕ)
    (background : Color) (line : ℕ) (cs : List ℕ) :
    ∀ (s : Sprite), s.width = sprite.width →
      s.data.length = sprite.width * sprite.height →
      (∀ x ∈ cs, x < sprite.width) → line < sprite.height →
      ∀ l c, l < sprite.height → c < sprite.width →
      (cs.foldl (denoise_step sprite margin min_count background line) s).get_at l c =
        if l = line ∧ c ∈ cs ∧
            lonely_count sprite margin background line c < min_count
        then background else s.get_at l c := by
  induction cs with
  | nil => intro s _ _ _ _ l c _ _; simp
  | cons c0 rest ih =>
    intro s hw hlen hcs hline l c hl hc
    have hc0 : c0 < sprite.width := hcs c0 (List.mem_cons_self _ _)
    rw [List.foldl_cons]
    have hw' : (denoise_step sprite margin min_count background line s c0).width =
        sprite.width := by rw [denoise_step_width, hw]
    have hlen' : (denoise_step sprite margin min_count background line s c0).data.length =
        sprite.width * sprite.height := by rw [denoise_step_len, hlen]
    rw [ih _ hw' hlen' (fun x hx => hcs x (List.mem_cons_of_mem _ hx)) hline l c hl hc]
    by_cases h1 : l = line ∧ c ∈ rest ∧
        lonely_count sprite margin background line c < min_count
    · rw [if_pos h1, if_pos ⟨h1.1, List.mem_cons_of_mem _ h1.2.1, h1.2.2⟩]
    · rw [if_neg h1]
      unfold denoise_step
      by_cases hcond0 : lonely_count sprite margin background line c0 < min_count
      · rw [if_pos hcond0]
        by_cases h2 : l = line ∧ c = c0
        · obtain ⟨hll, hcc⟩ := h2
          subst hll; subst hcc
          have hidx : matrix_index_to_vec s.width l c < s.data.length := by
            rw [hw, hlen]
            exact index_lt_of_lt _ _ _ _ hline hc
          rw [Sprite.get_at_set_at_self s l c background hidx]
          rw [if_pos ⟨rfl, List.mem_cons_self _ _, hcond0⟩]
        · have hne : ¬(line = l ∧ c0 = c) := by
            intro hcontra
            exact h2 ⟨hcontra.1.symm, hcontra.2.symm⟩
          rw [Sprite.get_at_set_at_ne s line c0 l c background
            (by rw [hw]; exact hc0) (by rw [hw]; exact hc) hne]
          rw [if_neg ?hneg]
          case hneg =>
            rintro ⟨ha, hb, hcnd⟩
            rcases List.mem_cons.mp hb with hb0 | hbr
            · exact h2 ⟨ha, hb0⟩
            · exact h1 ⟨ha, hbr, hcnd⟩
      · rw [if_neg hcond0]
        rw [if_neg ?hneg2]
        case hneg2 =>
          rintro ⟨ha, hb, hcnd⟩
          rcases List.mem_cons.mp hb with hb0 | hbr
          · rw [hb0] at hcnd; exact hcond0 hcnd
          · exact h1 ⟨ha, hbr, hcnd⟩

/-- Pointwise effect of the line loop of `remove_lonely_pixels` over an
arbitrary list of line indices. -/
theorem denoise_row_fold_get (sprite : Sprite) (margin min_count : ℕ)
    (background : Color) (ls : List ℕ) :
    ∀ (s : Sprite), s.width = sprite.width →
      s.data.length = sprite.width * sprite.height →
      (∀ x ∈ ls, x < sprite.height) →
      ∀ l c, l < sprite.height → c < sprite.width →
      (ls.foldl (denoise_line sprite margin min_count background) s).get_at l c =
        if l ∈ ls ∧ lonely_count sprite margin background l c < min_count
        then background else s.get_at l c := by
  induction ls with
  | nil => intro s _ _ _ l c _ _; simp
  | cons l0 rest ih =>
    intro s hw hlen hls l c hl hc
    have hl0 : l0 < sprite.height := hls l0 (List.mem_cons_self _ _)
    rw [List.foldl_cons]
    have hw' : (denoise_line sprite margin min_count background s l0).width =
        sprite.width := by rw [denoise_line_width, hw]
    have hlen' : (denoise_line sprite margin min_count background s l0).data.length =
        sprite.width * sprite.height := by rw [denoise_line_len, hlen]
    rw [ih _ hw' hlen' (fun x hx => hls x (List.mem_cons_of_mem _ hx)) l c hl hc]
    have hinner := denoise_col_fold_get sprite margin min_count background l0
      (List.range sprite.width) s hw hlen
      (fun x hx => List.mem_range.mp hx) hl0 l c hl hc
    by_cases h1 : l ∈ rest ∧ lonely_count sprite margin background l c < min_count
    · rw [if_pos h1, if_pos ⟨List.mem_cons_of_mem _ h1.1, h1.2⟩]
    · rw [if_neg h1]
      unfold denoise_line
      rw [hinner]
      by_cases h2 : l = l0 ∧ c ∈ List.range sprite.width ∧
          lonely_count sprite margin background l0 c < min_count
      · rw [if_pos h2, if_pos ?hp]
        case hp =>
          refine ⟨?_, ?_⟩
          · rw [h2.1]; exact List.mem_cons_self _ _
          · rw [h2.1]; exact h2.2.2
      · rw [if_neg h2, if_neg ?hn]
        case hn =>
          rintro ⟨ha, hcnd⟩
          rcases List.mem_cons.mp ha with ha0 | har
          · exact h2 ⟨ha0, List.mem_range.mpr hc, ha0 ▸ hcnd⟩
          · exact h1 ⟨har, hcnd⟩

/-- Pointwise characterization of `remove_lonely_pixels`: the output pixel
at an in-range position is `background` when the original sprite's clipped
neighborhood count is below `min_count`, and the original pixel otherwise. -/
theorem remove_lonely_pixels_get_at (sprite : Sprite) (margin min_count : ℕ)
    (background : Color) (l c : ℕ)
    (hlen : sprite.data.length = sprite.width * sprite.height)
    (hl : l < sprite.height) (hc : c < sprite.width) :
    (remove_lonely_pixels sprite margin min_count background).get_at l c =
      if lonely_count sprite margin background l c < min_count
      then background else sprite.get_at l c := by
  unfold remove_lonely_pixels
  rw [denoise_row_fold_get sprite margin min_count background (List.range sprite.height)
    sprite rfl hlen (fun x hx => List.mem_range.mp hx) l c hl hc]
  have hmem : l ∈ List.range sprite.height := List.mem_range.mpr hl
  simp [hmem]

/-! ### The fold-based neighbor count equals the specification's count -/

theorem foldl_count {α : Type} (P : α → Prop) [DecidablePred P] (L : List α)
    (acc : ℕ) :
    L.foldl (fun a x => if P x then a + 1 else a) acc =
      acc + L.countP (fun x => decide (P x)) := by
  induction L generalizing acc with
  | nil => simp
  | cons x rest ih =>
    rw [List.foldl_cons, ih, List.countP_cons]
    by_cases hx : P x
    · rw [if_pos hx]
      simp only [hx]
      simp
      omega
    · simp [hx]

theorem foldl_add_sum {α : Type} (g : α → ℕ) (L : List α) (acc : ℕ) :
    L.foldl (fun a x => g x + a) acc = acc + (L.map g).sum := by
  induction L generalizing acc with
  | nil => simp
  | cons x rest ih =>
    rw [List.foldl_cons, ih, List.map_cons, List.sum_cons]
    omega

theorem countP_product {α β : Type} (L1 : List α) (L2 : List β)
    (p : α × β → Bool) :
    (L1.product L2).countP p =
      (L1.map (fun a => L2.countP (fun b => p (a, b)))).sum := by
  induction L1 with
  | nil => simp [List.product]
  | cons a rest ih =>
    simp only [List.product, List.flatMap_cons, List.countP_append,
      List.countP_map, List.map_cons, List.sum_cons]
    rw [← ih]
    have hcomp : (p ∘ Prod.mk a) = fun b => p (a, b) := rfl
    rw [hcomp]
    simp [List.product]

theorem lonely_count_eq_spec (sprite : Sprite) (r : ℕ) (background : Color)
    (line column : ℕ) :
    lonely_count sprite r background line column =
      spec_neighbor_count sprite r background line column := by
  unfold lonely_count spec_neighbor_count
  simp only [foldl_count, foldl_add_sum, Nat.zero_add]
  rw [countP_product]
  have e1 : line - min line r = max 0 (line - r) := by omega
  have e2 : column - min column r = max 0 (column - r) := by omega
  have e3 : min (line + r + 1) sprite.height = min sprite.height (line + r + 1) :=
    Nat.min_comm _ _
  have e4 : min (column + r + 1) sprite.width = min sprite.width (column + r + 1) :=
    Nat.min_comm _ _
  rw [e1, e2, e3, e4]

/-! ### Concrete sprites used as witnesses -/

/-- A 5×5 sprite that is all background except for one non-background pixel
at the center `(2, 2)` (row-major index 12), as in the repository's own
`test_remove_lonely_pixels`. -/
def spr5 : Sprite := ⟨5, 5, (List.replicate 25 Color.default).set 12 ⟨255, 0, 0⟩⟩

/-! ### Claim theorems: denoiser -/

/-- C3: for every sprite, radius, threshold and background, the output of
`remove_lonely_pixels` has background at `(line, column)` exactly when the
number of non-background pixels of the ORIGINAL sprite in the clipped
square neighborhood `[max(0,line-r), min(height,line+r+1)) ×
[max(0,column-r), min(width,column+r+1))` (the pixel itself included) is
strictly below `minCount`, and the original pixel value otherwise; the
right-hand side mentions only the original sprite, so the result is
independent of the pixel visiting order. -/
theorem remove_lonely_pixels_matches_spec (sprite : Sprite) (r minCount : ℕ)
    (background : Color) (line column : ℕ)
    (hlen : sprite.data.length = sprite.width * sprite.height)
    (hl : line < sprite.height) (hc : column < sprite.width) :
    (remove_lonely_pixels sprite r minCount background).get_at line column =
      if spec_neighbor_count sprite r background line column < minCount
      then background else sprite.get_at line column := by
  rw [remove_lonely_pixels_get_at sprite r minCount background line column hlen hl hc,
    lonely_count_eq_spec]

/-- Witness for C3 at the concrete 5×5 lone-pixel sprite, radius 2,
threshold 8, center pixel. -/
theorem remove_lonely_pixels_matches_spec_witness :
    (remove_lonely_pixels spr5 2 8 Color.default).get_at 2 2 =
      if spec_neighbor_count spr5 2 Color.default 2 2 < 8
      then Color.default else spr5.get_at 2 2 :=
  remove_lonely_pixels_matches_spec spr5 2 8 Color.default 2 2 (by decide)
    (by decide) (by decide)

/-- C10: the denoiser only erases — `remove_lonely_pixels` preserves the
width, height and pixel count of its input, every in-range output pixel is
either the corresponding input pixel or the background color, and a pixel
that was already background stays background. -/
theorem remove_lonely_pixels_only_erases (sprite : Sprite) (r minCount : ℕ)
    (background : Color) :
    (remove_lonely_pixels sprite r minCount background).width = sprite.width ∧
    (remove_lonely_pixels sprite r minCount background).height = sprite.height ∧
    (remove_lonely_pixels sprite r minCount background).data.length =
      sprite.data.length ∧
    (sprite.data.length = sprite.width * sprite.height →
      ∀ line column, line < sprite.height → column < sprite.width →
        ((remove_lonely_pixels sprite r minCount background).get_at line column =
            sprite.get_at line column ∨
          (remove_lonely_pixels sprite r minCount background).get_at line column =
            background) ∧
        (sprite.get_at line column = background →
          (remove_lonely_pixels sprite r minCount background).get_at line column =
            background)) := by
  refine ⟨?_, ?_, ?_, ?_⟩
  · exact foldl_pres Sprite.width _
      (denoise_line_width sprite r minCount background) _ sprite
  · exact foldl_pres Sprite.height _
      (denoise_line_height sprite r minCount background) _ sprite
  · exact foldl_pres (fun s => s.data.length) _
      (denoise_line_len sprite r minCount background) _ sprite
  · intro hlen line column hl hc
    rw [remove_lonely_pixels_get_at sprite r minCount background line column hlen hl hc]
    constructor
    · split
      · exact Or.inr rfl
      · exact Or.inl rfl
    · intro hbg
      split
      · rfl
      · exact hbg

/-- Witness for C10 at the concrete 5×5 lone-pixel sprite. -/
theorem remove_lonely_pixels_only_erases_witness :
    (remove_lonely_pixels spr5 2 8 Color.default).get_at 2 2 = spr5.get_at 2 2 ∨
    (remove_lonely_pixels spr5 2 8 Color.default).get_at 2 2 = Color.default :=
  (((remove_lonely_pixels_only_erases spr5 2 8 Color.default).2.2.2 (by decide)
    2 2 (by decide) (by decide)).1)

/-- C1 counterexample: the pipeline's denoising passes DO act on a sprite
whose dimensions are at most 9 — the 5×5 lone-pixel sprite is changed by
`main`'s two passes, whereas the claim predicts that sprites with width ≤ 9
or height ≤ 9 pass through with no denoising applied. -/
theorem denoise_passes_hit_small_sprite :
    spr5.width ≤ 9 ∧ spr5.height ≤ 9 ∧
      denoise_passes Color.default [spr5] ≠ [spr5] := by decide

/-- C1 amended: `main` applies the two denoising passes (first `r=2,
minCount=8`, then `r=2, minCount=4`, in that order) to EVERY generated
sprite, unconditionally — there is no gate on the sprite's dimensions; in
particular the 5×5 lone-pixel sprite is denoised to all background. -/
theorem denoise_passes_unconditional :
    (∀ (background : Color) (sprites : List Sprite),
      denoise_passes background sprites = sprites.map (fun s =>
        remove_lonely_pixels (remove_lonely_pixels s 2 8 background)
          2 4 background)) ∧
    denoise_passes Color.default [spr5] =
      [Sprite.mk 5 5 (List.replicate 25 Color.default)] := by
  constructor
  · intro background sprites
    simp [denoise_passes, List.map_map, Function.comp]
  · decide

/-! ### Seed codec (`src/seed.rs`): data model -/

/-- Value of one character as a base-16 digit, as accepted by Rust's
`u8::from_str_radix(_, 16)`: `0`-`9` (codes 48-57), `a`-`f` (97-102) and
`A`-`F` (65-70). -/
def hex_digit_val (c : Char) : Option ℕ :=
  if 48 ≤ c.toNat ∧ c.toNat ≤ 57 then some (c.toNat - 48)
  else if 97 ≤ c.toNat ∧ c.toNat ≤ 102 then some (c.toNat - 87)
  else if 65 ≤ c.toNat ∧ c.toNat ≤ 70 then some (c.toNat - 55)
  else none

/-- Digit part of Rust's `u8::from_str_radix(s, 16)`: at least one base-16
digit, accumulated left to right; fails on an empty digit sequence, any
non-digit character, or overflow past the `u8` range (value ≥ 256). -/
def from_str_digits (ds : List Char) : Option ℕ :=
  if ds.isEmpty then none
  else
    match ds.foldl (fun acc c =>
        match acc, hex_digit_val c with
        | some a, some v => some (16 * a + v)
        | _, _ => none) (some 0) with
    | none => none
    | some v => if v < 256 then some v else none

/-- Model of Rust's `u8::from_str_radix(s, 16)` on the characters of one
chunk: an optional leading `+` sign, then the base-16 digits. -/
def from_str_radix16 (cs : List Char) : Option ℕ :=
  from_str_digits (if cs.head? = some '+' then cs.tail else cs)

/-- Model of Rust's slice `chunks(2)`: split a list into consecutive pairs,
with a final singleton when the length is odd. -/
def chunks2 {α : Type} : List α → List (List α)
  | [] => []
  | [a] => [[a]]
  | a :: b :: rest => [a, b] :: chunks2 rest

/-- UTF-8 byte length of a character list; `String::len()` in Rust (used by
the `hash.len() != 64` check of `Seed::from_str`) counts bytes. -/
def utf8_len (cs : List Char) : ℕ :=
  (cs.map Char.utf8Size).sum

/-- `SeedParseError` from `src/seed.rs`. -/
inductive SeedParseError where
  | InvalidSize : SeedParseError
  | InvalidByte : List Char → SeedParseError
deriving DecidableEq

/-- The chunk loop of `Seed::from_str`: `data[i] = from_str_radix(chunk)?`
over the enumerated two-character chunks, short-circuiting with
`InvalidByte(chunk)` on the first chunk that fails to parse. -/
def from_str_loop : List (List Char) → ℕ → List ℕ → Except SeedParseError (List ℕ)
  | [], _, data => .ok data
  | c :: rest, i, data =>
    match from_str_radix16 c with
    | none => .error (.InvalidByte c)
    | some v => from_str_loop rest (i + 1) (data.set i v)

/-- `Seed::from_str` from `src/seed.rs`: reject strings whose UTF-8 byte
length differs from 64 with `InvalidSize`, then parse the character chunks
of size 2 into the 32 bytes of a zero-initialized array.  Bytes are `ℕ`
values below 256. -/
def Seed.from_str (value : List Char) : Except SeedParseError (List ℕ) :=
  if utf8_len value ≠ 64 then .error .InvalidSize
  else from_str_loop (chunks2 value) 0 (List.replicate 32 0)

/-- Lowercase base-16 digit character for `d < 16`, as produced by Rust's
`format!("{:02x}", t)`. -/
def hex_char (d : ℕ) : Char :=
  if d < 10 then Char.ofNat (48 + d) else Char.ofNat (87 + d)

/-- One byte rendered by `format!("{:02x}", t)` for `t < 256`: exactly two
lowercase hex digits, high nibble first. -/
def byte_to_hex (t : ℕ) : List Char :=
  [hex_char (t / 16), hex_char (t % 16)]

/-- The `Display` implementation of `Seed` from `src/seed.rs`: each byte
formatted with `{:02x}` and joined. -/
def Seed.display (data : List ℕ) : List Char :=
  (data.map byte_to_hex).flatten

/-- One character is a hexadecimal digit in the specification's sense:
`0-9` (codes 48-57), `a-f` (97-102) or `A-F` (65-70). -/
def is_hex_digit (c : Char) : Prop :=
  (48 ≤ c.toNat ∧ c.toNat ≤ 57) ∨ (97 ≤ c.toNat ∧ c.toNat ≤ 102) ∨
    (65 ≤ c.toNat ∧ c.toNat ≤ 70)

instance (c : Char) : Decidable (is_hex_digit c) := by
  unfold is_hex_digit; infer_instance

/-- A valid two-character hexadecimal chunk in the specification's sense. -/
def is_hex_pair (cs : List Char) : Prop :=
  cs.length = 2 ∧ ∀ c ∈ cs, is_hex_digit c

instance (cs : List Char) : Decidable (is_hex_pair cs) := by
  unfold is_hex_pair; infer_instance

/-- The sixteen lowercase hexadecimal digit characters, `0-9` then `a-f`. -/
def lower_hex_chars : List Char :=
  (List.range 16).map hex_char

/-! ### Seed codec: character-level lemmas -/

theorem utf8Size_one_of_toNat_lt {c : Char} (h : c.toNat < 128) :
    c.utf8Size = 1 := by
  unfold Char.utf8Size
  rw [if_pos]
  rw [UInt32.le_def, BitVec.le_def]
  exact Nat.le_of_lt_succ h

theorem hex_digit_val_lt {c : Char} {d : ℕ} (h : hex_digit_val c = some d) :
    d < 16 := by
  unfold hex_digit_val at h
  split at h
  · simp at h; omega
  · split at h
    · simp at h; omega
    · split at h
      · simp at h; omega
      · simp at h

theorem hex_digit_val_toNat_lt {c : Char} {d : ℕ}
    (h : hex_digit_val c = some d) : c.toNat < 128 := by
  unfold hex_digit_val at h
  split at h
  · omega
  · split at h
    · omega
    · split at h
      · omega
      · simp at h

theorem hex_round : ∀ d < 16, hex_digit_val (hex_char d) = some d := by decide

theorem hex_char_ne_plus : ∀ d < 16, hex_char d ≠ '+' := by decide

theorem hex_char_utf8Size : ∀ d < 16, (hex_char d).utf8Size = 1 := by decide

/-! ### Seed codec: chunk and fold lemmas -/

theorem flatten_chunks2 {α : Type} : ∀ cs : List α, (chunks2 cs).flatten = cs
  | [] => rfl
  | [_] => rfl
  | a :: b :: rest => by
    simp only [chunks2, List.flatten_cons, List.cons_append, List.nil_append]
    rw [flatten_chunks2 rest]

theorem chunks2_flatten_pairs {α : Type} :
    ∀ L : List (List α), (∀ x ∈ L, x.length = 2) → chunks2 L.flatten = L := by
  intro L
  induction L with
  | nil => intro _; rfl
  | cons x rest ih =>
    intro hx
    have hlen : x.length = 2 := hx x (List.mem_cons_self _ _)
    match x, hlen with
    | [a, b], _ =>
      simp only [List.flatten_cons, List.cons_append, List.nil_append]
      show chunks2 (a :: b :: rest.flatten) = [a, b] :: rest
      rw [chunks2]
      rw [ih (fun y hy => hx y (List.mem_cons_of_mem _ hy))]

theorem chunks2_length_even {α : Type} :
    ∀ cs : List α, cs.length % 2 = 0 → (chunks2 cs).length = cs.length / 2
  | [], _ => by simp [chunks2]
  | [_], h => by simp at h
  | a :: b :: rest, h => by
    simp only [chunks2, List.length_cons]
    rw [chunks2_length_even rest
      (by simp only [List.length_cons] at h; omega)]
    omega

theorem chunks2_pairs_of_even {α : Type} :
    ∀ cs : List α, cs.length % 2 = 0 → ∀ ch ∈ chunks2 cs, ch.length = 2
  | [], _ => by intro ch hch; simp [chunks2] at hch
  | [_], h => by simp at h
  | a :: b :: rest, h => by
    intro ch hch
    rw [chunks2] at hch
    rcases List.mem_cons.mp hch with h0 | hr
    · rw [h0]; rfl
    · exact chunks2_pairs_of_even rest
        (by simp only [List.length_cons] at h; omega) ch hr

theorem mem_of_mem_chunks2 {α : Type} {cs : List α} {ch : List α} {c : α}
    (hch : ch ∈ chunks2 cs) (hc : c ∈ ch) : c ∈ cs := by
  rw [← flatten_chunks2 cs]
  exact List.mem_flatten.mpr ⟨ch, hch, hc⟩

/-- Sequential writes `data[i] = v0, data[i+1] = v1, ...`, the shape of the
enumerated chunk loop in `Seed::from_str`. -/
def write_seq (data : List ℕ) (i : ℕ) : List ℕ → List ℕ
  | [] => data
  | v :: vs => write_seq (data.set i v) (i + 1) vs

theorem write_seq_pre : ∀ (vs pre data : List ℕ), vs.length = data.length →
    write_seq (pre ++ data) pre.length vs = pre ++ vs := by
  intro vs
  induction vs with
  | nil =>
    intro pre data hlen
    have : data = [] := List.eq_nil_of_length_eq_zero hlen.symm
    rw [this]
    rfl
  | cons v vs ih =>
    intro pre data hlen
    cases data with
    | nil => simp at hlen
    | cons d data2 =>
      show write_seq ((pre ++ d :: data2).set pre.length v) (pre.length + 1) vs =
        pre ++ v :: vs
      rw [List.set_append_right _ _ (Nat.le_refl _), Nat.sub_self]
      show write_seq (pre ++ v :: data2) (pre.length + 1) vs = pre ++ v :: vs
      have e1 : pre ++ v :: data2 = (pre ++ [v]) ++ data2 := by simp
      have e2 : pre.length + 1 = (pre ++ [v]).length := by simp
      rw [e1, e2, ih (pre ++ [v]) data2
        (by simp only [List.length_cons] at hlen; omega)]
      simp

theorem write_seq_zero (vs data : List ℕ) (hlen : vs.length = data.length) :
    write_seq data 0 vs = vs := by
  have := write_seq_pre vs [] data hlen
  simpa using this

theorem from_str_loop_ok : ∀ (cs : List (List Char)) (vs : List ℕ) (i : ℕ)
    (data : List ℕ), cs.map from_str_radix16 = vs.map some →
    from_str_loop cs i data = .ok (write_seq data i vs) := by
  intro cs
  induction cs with
  | nil =>
    intro vs i data hmap
    have : vs = [] := by
      cases vs with
      | nil => rfl
      | cons v vs2 => simp at hmap
    rw [this]
    rfl
  | cons c rest ih =>
    intro vs i data hmap
    cases vs with
    | nil => simp at hmap
    | cons v vs2 =>
      simp only [List.map_cons, List.cons.injEq] at hmap
      show (match from_str_radix16 c with
        | none => Except.error (SeedParseError.InvalidByte c)
        | some w => from_str_loop rest (i + 1) (data.set i w)) =
        Except.ok (write_seq data i (v :: vs2))
      rw [hmap.1]
      exact ih vs2 (i + 1) (data.set i v) hmap.2

/-! ### Seed codec: parsing lemmas -/

theorem hex_digit_val_plus : hex_digit_val '+' = none := by decide

theorem from_str_radix16_pair {c1 c2 : Char} {d1 d2 : ℕ}
    (h1 : hex_digit_val c1 = some d1) (h2 : hex_digit_val c2 = some d2) :
    from_str_radix16 [c1, c2] = some (16 * d1 + d2) := by
  have hne : c1 ≠ '+' := by
    intro he
    rw [he, hex_digit_val_plus] at h1
    exact Option.noConfusion h1
  have hd1 : d1 < 16 := hex_digit_val_lt h1
  have hd2 : d2 < 16 := hex_digit_val_lt h2
  unfold from_str_radix16
  rw [if_neg (by simp only [List.head?_cons, Option.some.injEq]; exact hne)]
  unfold from_str_digits
  rw [if_neg (by simp)]
  simp only [List.foldl_cons, List.foldl_nil, h1, h2]
  rw [if_pos (by omega)]
  congr 1
  omega

theorem from_str_radix16_byte (b : ℕ) (hb : b < 256) :
    from_str_radix16 (byte_to_hex b) = some b := by
  have h1 : b / 16 < 16 := by omega
  have h2 : b % 16 < 16 := Nat.mod_lt _ (by omega)
  have hpair := from_str_radix16_pair (hex_round _ h1) (hex_round _ h2)
  show from_str_radix16 [hex_char (b / 16), hex_char (b % 16)] = some b
  rw [hpair]
  congr 1
  omega

theorem radix_fold_none : ∀ ds : List Char,
    ds.foldl (fun acc c => match acc, hex_digit_val c with
      | some a, some v => some (16 * a + v)
      | _, _ => none) none = none := by
  intro ds
  induction ds with
  | nil => rfl
  | cons c rest ih => exact ih

theorem radix_fold_chars : ∀ (ds : List Char) (acc : Option ℕ),
    (ds.foldl (fun acc c => match acc, hex_digit_val c with
      | some a, some v => some (16 * a + v)
      | _, _ => none) acc) ≠ none → ∀ c ∈ ds, hex_digit_val c ≠ none := by
  intro ds
  induction ds with
  | nil => intro acc _ c hc; exact absurd hc (List.not_mem_nil c)
  | cons c0 rest ih =>
    intro acc hfold c hc
    rw [List.foldl_cons] at hfold
    have hstep : (match acc, hex_digit_val c0 with
        | some a, some v => some (16 * a + v)
        | _, _ => none) ≠ none := by
      intro he
      rw [he, radix_fold_none rest] at hfold
      exact hfold rfl
    rcases List.mem_cons.mp hc with h0 | hr
    · subst h0
      intro he
      rw [he] at hstep
      apply hstep
      cases acc <;> rfl
    · exact ih _ hfold c hr

theorem from_str_digits_chars {ds : List Char} (h : from_str_digits ds ≠ none) :
    ∀ c ∈ ds, hex_digit_val c ≠ none := by
  intro x hx
  unfold from_str_digits at h
  by_cases hempty : ds.isEmpty
  · rw [if_pos hempty] at h
    exact absurd rfl h
  · rw [if_neg hempty] at h
    apply radix_fold_chars ds (some 0) ?_ x hx
    intro hnone
    rw [hnone] at h
    exact h rfl

theorem from_str_radix16_chars_ascii {ch : List Char}
    (h : from_str_radix16 ch ≠ none) : ∀ c ∈ ch, c.utf8Size = 1 := by
  intro c hc
  unfold from_str_radix16 at h
  have hfold : ∀ c ∈ (if ch.head? = some '+' then ch.tail else ch),
      hex_digit_val c ≠ none := from_str_digits_chars h
  have hsize : ∀ x : Char, hex_digit_val x ≠ none → x.utf8Size = 1 := by
    intro x hx
    cases hv : hex_digit_val x with
    | none => exact absurd hv hx
    | some d => exact utf8Size_one_of_toNat_lt (hex_digit_val_toNat_lt hv)
  cases ch with
  | nil => exact absurd hc (List.not_mem_nil c)
  | cons a t =>
    by_cases ha : a = '+'
    · have hds : (if (a :: t).head? = some '+' then (a :: t).tail else a :: t) = t := by
        rw [if_pos (by rw [ha]; rfl)]
        rfl
      rcases List.mem_cons.mp hc with h0 | hr
      · rw [h0, ha]; decide
      · exact hsize c (by rw [hds] at hfold; exact hfold c hr)
    · have hds : (if (a :: t).head? = some '+' then (a :: t).tail else a :: t) =
          a :: t := by
        rw [if_neg]
        simp [ha]
      rw [hds] at hfold
      exact hsize c (hfold c hc)

theorem from_str_digits_lt256 {ds : List Char} {v : ℕ}
    (h : from_str_digits ds = some v) : v < 256 := by
  unfold from_str_digits at h
  split at h
  · exact Option.noConfusion h
  · split at h
    · exact Option.noConfusion h
    · split at h
      · simp at h
        omega
      · exact Option.noConfusion h

theorem from_str_radix16_lt256 {ch : List Char} {v : ℕ}
    (h : from_str_radix16 ch = some v) : v < 256 := by
  unfold from_str_radix16 at h
  exact from_str_digits_lt256 h

theorem from_str_loop_ne_invalid_size : ∀ (cs : List (List Char)) (i : ℕ)
    (data : List ℕ), from_str_loop cs i data ≠ .error .InvalidSize := by
  intro cs
  induction cs with
  | nil => intro i data h; simp [from_str_loop] at h
  | cons c rest ih =>
    intro i data h
    unfold from_str_loop at h
    revert h
    cases hv : from_str_radix16 c with
    | none => intro h; simp at h
    | some v => intro h; exact ih (i + 1) (data.set i v) h

theorem from_str_loop_first_error : ∀ (cs : List (List Char)) (i : ℕ)
    (data : List ℕ), (∃ c ∈ cs, from_str_radix16 c = none) →
    ∃ c, c ∈ cs ∧ from_str_radix16 c = none ∧
      from_str_loop cs i data = .error (.InvalidByte c) := by
  intro cs
  induction cs with
  | nil =>
    intro i data hex
    obtain ⟨c, hc, _⟩ := hex
    exact absurd hc (List.not_mem_nil c)
  | cons c0 rest ih =>
    intro i data hex
    cases hv : from_str_radix16 c0 with
    | none =>
      refine ⟨c0, List.mem_cons_self _ _, hv, ?_⟩
      unfold from_str_loop
      rw [hv]
    | some v =>
      obtain ⟨c, hc, hcn⟩ := hex
      have hcr : c ∈ rest := by
        rcases List.mem_cons.mp hc with h0 | hr
        · rw [h0] at hcn
          rw [hcn] at hv
          exact Option.noConfusion hv
        · exact hr
      obtain ⟨c2, hc2, hc2n, hloop⟩ := ih (i + 1) (data.set i v) ⟨c, hcr, hcn⟩
      refine ⟨c2, List.mem_cons_of_mem _ hc2, hc2n, ?_⟩
      unfold from_str_loop
      rw [hv]
      exact hloop

theorem utf8_len_ascii : ∀ cs : List Char,
    (∀ c ∈ cs, c.utf8Size = 1) → utf8_len cs = cs.length := by
  intro cs
  induction cs with
  | nil => intro _; rfl
  | cons c rest ih =>
    intro hall
    unfold utf8_len at ih ⊢
    simp only [List.map_cons, List.sum_cons, List.length_cons]
    rw [hall c (List.mem_cons_self _ _), ih (fun x hx => hall x (List.mem_cons_of_mem _ hx))]
    omega

/-! ### Seed codec: display lemmas -/

theorem display_length : ∀ s : List ℕ, (Seed.display s).length = 2 * s.length := by
  intro s
  induction s with
  | nil => rfl
  | cons b rest ih =>
    show ((byte_to_hex b) ++ (Seed.display rest)).length = 2 * (rest.length + 1)
    rw [List.length_append, ih]
    show 2 + 2 * rest.length = 2 * (rest.length + 1)
    omega

theorem display_chars {s : List ℕ} (hbytes : ∀ b ∈ s, b < 256) :
    ∀ c ∈ Seed.display s, c.utf8Size = 1 := by
  intro c hc
  unfold Seed.display at hc
  rw [List.mem_flatten] at hc
  obtain ⟨x, hx, hcx⟩ := hc
  rw [List.mem_map] at hx
  obtain ⟨b, hb, rfl⟩ := hx
  have hblt := hbytes b hb
  simp only [byte_to_hex, List.mem_cons, List.not_mem_nil, or_false] at hcx
  rcases hcx with h1 | h2
  · rw [h1]
    exact hex_char_utf8Size _ (by omega)
  · rw [h2]
    exact hex_char_utf8Size _ (by omega)

/-! ### Claim theorems: seed codec -/

/-- C4: for every 32-byte seed `s`, parsing the hex rendering of `s` yields
`s` back, and for every 64-character lowercase hexadecimal character string
`h`, rendering the (successful) parse of `h` yields `h` back. -/
theorem seed_hex_round_trip :
    (∀ s : List ℕ, s.length = 32 → (∀ b ∈ s, b < 256) →
      Seed.from_str (Seed.display s) = .ok s) ∧
    (∀ h : List Char, h.length = 64 → (∀ c ∈ h, c ∈ lower_hex_chars) →
      ∃ s, Seed.from_str h = .ok s ∧ Seed.display s = h) := by
  constructor
  · intro s hlen hbytes
    have hpairs : ∀ x ∈ s.map byte_to_hex, x.length = 2 := by
      intro x hx
      obtain ⟨b, _, rfl⟩ := List.mem_map.mp hx
      rfl
    have hchunks : chunks2 (Seed.display s) = s.map byte_to_hex :=
      chunks2_flatten_pairs _ hpairs
    have hsize : utf8_len (Seed.display s) = 64 := by
      rw [utf8_len_ascii _ (display_chars hbytes), display_length, hlen]
    unfold Seed.from_str
    rw [if_neg (by rw [hsize]; omega)]
    rw [hchunks]
    rw [from_str_loop_ok _ s 0 _ ?hmap]
    case hmap =>
      rw [List.map_map]
      have : (from_str_radix16 ∘ byte_to_hex) = fun b => from_str_radix16 (byte_to_hex b) := rfl
      rw [this]
      apply List.map_congr_left
      intro b hb
      exact from_str_radix16_byte b (hbytes b hb)
    rw [write_seq_zero s _ (by simp [hlen])]
  · intro h hlen hhex
    have hchar : ∀ c ∈ lower_hex_chars,
        hex_digit_val c ≠ none ∧ hex_char ((hex_digit_val c).getD 0) = c ∧
          c.utf8Size = 1 := by decide
    have heven : h.length % 2 = 0 := by rw [hlen]
    have hpairs2 := chunks2_pairs_of_even h heven
    have hparse : ∀ ch ∈ chunks2 h, ∃ v, from_str_radix16 ch = some v ∧
        byte_to_hex v = ch := by
      intro ch hch
      have hl2 := hpairs2 ch hch
      cases ch with
      | nil => simp at hl2
      | cons c1 t =>
        cases t with
        | nil => simp at hl2
        | cons c2 t2 =>
          cases t2 with
          | cons d t3 => simp at hl2
          | nil =>
            have hc1 : c1 ∈ lower_hex_chars :=
              hhex c1 (mem_of_mem_chunks2 hch (by simp))
            have hc2 : c2 ∈ lower_hex_chars :=
              hhex c2 (mem_of_mem_chunks2 hch (by simp))
            obtain ⟨hs1, he1, _⟩ := hchar c1 hc1
            obtain ⟨hs2, he2, _⟩ := hchar c2 hc2
            cases hv1 : hex_digit_val c1 with
            | none => exact absurd hv1 hs1
            | some d1 =>
              cases hv2 : hex_digit_val c2 with
              | none => exact absurd hv2 hs2
              | some d2 =>
                refine ⟨16 * d1 + d2, from_str_radix16_pair hv1 hv2, ?_⟩
                have hd1 := hex_digit_val_lt hv1
                have hd2 := hex_digit_val_lt hv2
                unfold byte_to_hex
                have ed1 : (16 * d1 + d2) / 16 = d1 := by omega
                have ed2 : (16 * d1 + d2) % 16 = d2 := by omega
                rw [ed1, ed2]
                rw [hv1] at he1
                rw [hv2] at he2
                simp only [Option.getD_some] at he1 he2
                rw [he1, he2]
    have hmap : (chunks2 h).map from_str_radix16 =
        ((chunks2 h).map (fun ch => (from_str_radix16 ch).getD 0)).map some := by
      rw [List.map_map]
      apply List.map_congr_left
      intro ch hch
      obtain ⟨v, hv, _⟩ := hparse ch hch
      show from_str_radix16 ch = some ((from_str_radix16 ch).getD 0)
      rw [hv]
      rfl
    have hlen32 : ((chunks2 h).map (fun ch => (from_str_radix16 ch).getD 0)).length = 32 := by
      rw [List.length_map, chunks2_length_even h heven, hlen]
    have hascii : ∀ c ∈ h, c.utf8Size = 1 := by
      intro c hc
      exact (hchar c (hhex c hc)).2.2
    have hsize : utf8_len h = 64 := by rw [utf8_len_ascii h hascii, hlen]
    refine ⟨(chunks2 h).map (fun ch => (from_str_radix16 ch).getD 0), ?_, ?_⟩
    · unfold Seed.from_str
      rw [if_neg (by rw [hsize]; omega)]
      rw [from_str_loop_ok _ _ 0 _ hmap]
      rw [write_seq_zero _ _ (by simp [hlen32])]
    · unfold Seed.display
      rw [List.map_map]
      have hid : (chunks2 h).map (byte_to_hex ∘ fun ch => (from_str_radix16 ch).getD 0) =
          chunks2 h := by
        have : ∀ ch ∈ chunks2 h,
            (byte_to_hex ∘ fun ch => (from_str_radix16 ch).getD 0) ch = id ch := by
          intro ch hch
          obtain ⟨v, hv, hb⟩ := hparse ch hch
          show byte_to_hex ((from_str_radix16 ch).getD 0) = ch
          rw [hv]
          exact hb
        rw [List.map_congr_left this, List.map_id]
      rw [hid, flatten_chunks2]

/-- Witness for C4: the all-zero 32-byte seed round-trips through its hex
rendering. -/
theorem seed_hex_round_trip_witness :
    Seed.from_str (Seed.display (List.replicate 32 0)) =
      .ok (List.replicate 32 0) :=
  seed_hex_round_trip.1 (List.replicate 32 0) (by decide) (by decide)

deriving instance DecidableEq for Except

/-- C5 counterexample: the 64-character string made of 32 copies of the
pair `+a` contains chunks that are NOT two hexadecimal digits, yet
`Seed::from_str` parses it successfully to the byte 10 repeated 32 times
(Rust's `u8::from_str_radix` accepts an optional leading `+`), instead of
failing with `InvalidByte` as the claim requires. -/
theorem seed_from_str_accepts_plus :
    utf8_len ((List.replicate 32 ['+', 'a']).flatten) = 64 ∧
    ['+', 'a'] ∈ chunks2 ((List.replicate 32 ['+', 'a']).flatten) ∧
    ¬ is_hex_pair ['+', 'a'] ∧
    Seed.from_str ((List.replicate 32 ['+', 'a']).flatten) =
      .ok (List.replicate 32 10) := by decide

/-- C5 (amended): `Seed::from_str` returns `InvalidSize` exactly when the
input's byte length differs from 64 (in particular for a 63-character hex
string); for a 64-byte input it returns `InvalidByte` carrying an offending
chunk when some chunk is rejected by `u8::from_str_radix(_, 16)` — which
accepts an optional leading `+` before the hex digits, so a chunk such as
`+a` parses successfully — (in particular a string containing the chunk
`zz` fails so), and when every chunk parses it succeeds with exactly 32
bytes, the i-th byte being the value of the i-th chunk, never panicking,
truncating or padding. -/
theorem seed_parse_error_taxonomy :
    (∀ input : List Char,
      Seed.from_str input = .error .InvalidSize ↔ utf8_len input ≠ 64) ∧
    (∀ input : List Char, utf8_len input = 64 →
      (∃ ch ∈ chunks2 input, from_str_radix16 ch = none) →
      ∃ ch, ch ∈ chunks2 input ∧ from_str_radix16 ch = none ∧
        Seed.from_str input = .error (.InvalidByte ch)) ∧
    (∀ input : List Char, utf8_len input = 64 →
      (∀ ch ∈ chunks2 input, from_str_radix16 ch ≠ none) →
      (chunks2 input).length = 32 ∧
      Seed.from_str input =
        .ok ((chunks2 input).map (fun ch => (from_str_radix16 ch).getD 0))) ∧
    Seed.from_str (List.replicate 63 '0') = .error .InvalidSize ∧
    Seed.from_str (['z', 'z'] ++ List.replicate 62 '0') =
      .error (.InvalidByte ['z', 'z']) := by
  refine ⟨?_, ?_, ?_, by decide, by decide⟩
  · intro input
    constructor
    · intro h
      intro hsz
      unfold Seed.from_str at h
      rw [if_neg (by rw [hsz]; omega)] at h
      exact from_str_loop_ne_invalid_size _ _ _ h
    · intro hne
      unfold Seed.from_str
      rw [if_pos hne]
  · intro input h64 hex2
    obtain ⟨ch, hch, hchn, hloop⟩ :=
      from_str_loop_first_error (chunks2 input) 0 (List.replicate 32 0) hex2
    refine ⟨ch, hch, hchn, ?_⟩
    unfold Seed.from_str
    rw [if_neg (by rw [h64]; omega)]
    exact hloop
  · intro input h64 hall
    have hascii : ∀ c ∈ input, c.utf8Size = 1 := by
      intro c hc
      rw [← flatten_chunks2 input] at hc
      obtain ⟨ch, hch, hcc⟩ := List.mem_flatten.mp hc
      exact from_str_radix16_chars_ascii (hall ch hch) c hcc
    have hlen : input.length = 64 := by
      rw [← utf8_len_ascii input hascii, h64]
    have heven : input.length % 2 = 0 := by rw [hlen]
    have hmap : (chunks2 input).map from_str_radix16 =
        ((chunks2 input).map (fun ch => (from_str_radix16 ch).getD 0)).map some := by
      rw [List.map_map]
      apply List.map_congr_left
      intro ch hch
      show from_str_radix16 ch = some ((from_str_radix16 ch).getD 0)
      cases hv : from_str_radix16 ch with
      | none => exact absurd hv (hall ch hch)
      | some v => rfl
    have hc32 : (chunks2 input).length = 32 := by
      rw [chunks2_length_even input heven, hlen]
    refine ⟨hc32, ?_⟩
    unfold Seed.from_str
    rw [if_neg (by rw [h64]; omega)]
    rw [from_str_loop_ok _ _ 0 _ hmap]
    rw [write_seq_zero _ _ (by simp [hc32])]

/-- Witness for C5 at the all-zero 64-character hex string: every chunk
parses and the result is the 32-chunk byte list. -/
theorem seed_parse_error_taxonomy_witness :
    (chunks2 ((List.replicate 32 ['0', '0']).flatten)).length = 32 ∧
    Seed.from_str ((List.replicate 32 ['0', '0']).flatten) =
      .ok ((chunks2 ((List.replicate 32 ['0', '0']).flatten)).map
        (fun ch => (from_str_radix16 ch).getD 0)) :=
  seed_parse_error_taxonomy.2.2.1 ((List.replicate 32 ['0', '0']).flatten)
    (by decide) (by decide)

/-! ### Sprite generator (`src/main.rs`): abstract RNG and generation -/

/-- Layout and size arguments of the program (`struct Arguments` in
`src/main.rs`, seed handled separately). -/
structure Arguments where
  sprite_width : ℕ
  sprite_height : ℕ
  sprite_columns : ℕ
  sprite_lines : ℕ
  margin : ℕ
deriving DecidableEq

/-- Abstract deterministic interface to the `rand` crate operations used by
the program, with the library's range guarantees as fields:
`StdRng::from_seed` builds the generator state from the 32 seed bytes,
`WeightedIndex::new([w0, w1]).sample` returns an index below 2, and the
index drawn by `SliceRandom::choose` on a slice of length `n > 0` is below
`n`.  Every claim about generation is proved for an arbitrary instance;
the program instantiates it with seeded `StdRng` (ChaCha), which is a pure
state machine of exactly this shape. -/
structure RngOps (σ : Type) where
  from_seed : List ℕ → σ
  sample_weighted : σ → ℚ → ℚ → ℕ × σ
  choose_idx : σ → ℕ → ℕ × σ
  sample_weighted_lt : ∀ s w0 w1, (sample_weighted s w0 w1).1 < 2
  choose_idx_lt : ∀ s n, 0 < n → (choose_idx s n).1 < n

/-- The symmetry factor `(sym_index - index) as f32 / width as f32` of
`generate_sprite` (`src/main.rs`), written over `ℚ`: the exact real value
that the `f32` computation approximates.  The numerator
`sym_index - index = width - 1 - column - column` uses natural subtraction
exactly as Rust `usize` subtraction behaves for `column ≤ width - 1 - column`. -/
def factor (width column : ℕ) : ℚ :=
  ((width - 1 - column - column : ℕ) : ℚ) / (width : ℚ)

/-- The two weights `[0.5 - 0.5*factor, 0.5 + 0.5*factor]` passed to
`WeightedIndex::new` in `generate_sprite`, over `{paint, skip}` in that
order (`values = [true, false]`, index 0 paints). -/
def paint_weights (width column : ℕ) : ℚ × ℚ :=
  (1/2 - 1/2 * factor width column, 1/2 + 1/2 * factor width column)

/-- Probability that `WeightedIndex::new([w0, w1]).sample` returns index 0,
i.e. that the column pair is painted: `w0 / (w0 + w1)`. -/
def paint_prob (width column : ℕ) : ℚ :=
  (paint_weights width column).1 /
    ((paint_weights width column).1 + (paint_weights width column).2)

/-- Body of the per-column loop of `generate_sprite` (`src/main.rs`): draw
the weighted boolean from `[true, false]` with the symmetry-biased weights;
when it is `true`, draw a uniform color from the palette and store it at
both `column` and its mirror `sym_index = width - 1 - column`.
`palette.choose(..).unwrap()` panics on an empty palette in Rust; the model
reads `Color.default` there, and the callers below always pass the
nonempty palettes guaranteed by the palette parser. -/
def generate_row_step {σ : Type} (ops : RngOps σ) (width : ℕ)
    (palette : List Color) (state : List Color × σ) (column : ℕ) :
    List Color × σ :=
  let sym_index := width - 1 - column
  let w := paint_weights width column
  let samp := ops.sample_weighted state.2 w.1 w.2
  if [true, false].getD samp.1 false then
    let ch := ops.choose_idx samp.2 palette.length
    let color := (palette.get? ch.1).getD Color.default
    ((state.1.set column color).set sym_index color, ch.2)
  else (state.1, samp.2)

/-- One row of `generate_sprite`: start from `width` copies of the
background and run the column loop over `0 .. (width+1)/2`. -/
def generate_row {σ : Type} (ops : RngOps σ) (width : ℕ) (background : Color)
    (palette : List Color) (rng : σ) : List Color × σ :=
  (List.range ((width + 1) / 2)).foldl (generate_row_step ops width palette)
    (List.replicate width background, rng)

/-- Body of the per-row `flat_map` of `generate_sprite`: generate the next
row, threading the RNG, and append it to the accumulated data. -/
def generate_sprite_step {σ : Type} (ops : RngOps σ) (width : ℕ)
    (background : Color) (palette : List Color) (state : List Color × σ)
    (_row : ℕ) : List Color × σ :=
  let res := generate_row ops width background palette state.2
  (state.1 ++ res.1, res.2)

/-- `generate_sprite` from `src/main.rs`: rows generated top to bottom,
each mirror-symmetric, concatenated row-major into a `Sprite`. -/
def generate_sprite {σ : Type} (ops : RngOps σ) (width height : ℕ)
    (background : Color) (palette : List Color) (rng : σ) : Sprite × σ :=
  let res := (List.range height).foldl
    (generate_sprite_step ops width background palette) ([], rng)
  (Sprite.mk width height res.1, res.2)

/-- `generate_sprite_matrix` from `src/main.rs`: for each of the
`columns * lines` grid cells in order, choose a palette uniformly at
random, then generate the sprite, threading one RNG state throughout.
`palettes.choose(..).unwrap()` panics when the palette set is empty; the
model returns `none` there. -/
def generate_sprite_matrix {σ : Type} (ops : RngOps σ) (args : Arguments)
    (background : Color) (palettes : List (List Color)) (rng : σ) :
    Option (List Sprite × σ) :=
  (List.range (args.sprite_columns * args.sprite_lines)).foldl (fun acc _ =>
    match acc with
    | none => none
    | some (sprites, rng) =>
      let ch := ops.choose_idx rng palettes.length
      match palettes.get? ch.1 with
      | none => none
      | some palette =>
        let res := generate_sprite ops args.sprite_width args.sprite_height
          background palette ch.2
        some (sprites ++ [res.1], res.2)) (some ([], rng))

/-! ### Optional-lookup bridge lemmas -/

theorem getq_set_self {α : Type} (l : List α) (i : ℕ) (a : α)
    (h : i < l.length) : (l.set i a).get? i = some a := by
  rw [List.get?_eq_getElem?]
  exact List.getElem?_set_self (by simpa using h)

theorem getq_set_ne {α : Type} (l : List α) (i j : ℕ) (a : α) (h : i ≠ j) :
    (l.set i a).get? j = l.get? j := by
  rw [List.get?_eq_getElem?, List.get?_eq_getElem?]
  exact List.getElem?_set_ne h

theorem getq_append_left {α : Type} (l1 l2 : List α) (i : ℕ)
    (h : i < l1.length) : (l1 ++ l2).get? i = l1.get? i := by
  rw [List.get?_eq_getElem?, List.get?_eq_getElem?]
  exact List.getElem?_append_left h

theorem getq_append_right {α : Type} (l1 l2 : List α) (i : ℕ)
    (h : l1.length ≤ i) : (l1 ++ l2).get? i = l2.get? (i - l1.length) := by
  rw [List.get?_eq_getElem?, List.get?_eq_getElem?]
  exact List.getElem?_append_right h

theorem getq_eq_none {α : Type} (l : List α) (i : ℕ) (h : l.length ≤ i) :
    l.get? i = none := by
  rw [List.get?_eq_getElem?]
  exact List.getElem?_eq_none h

theorem getq_replicate {α : Type} (n i : ℕ) (a : α) (h : i < n) :
    (List.replicate n a).get? i = some a := by
  rw [List.get?_eq_getElem?]
  exact List.getElem?_replicate_of_lt h

theorem getD_eq_getq {α : Type} (l : List α) (i : ℕ) (d : α) :
    l.getD i d = (l.get? i).getD d := by
  simp [List.getD, List.get?_eq_getElem?]

/-! ### Generator lemmas: row symmetry -/

theorem pal_set (width a : ℕ) (line : List Color) (col : Color)
    (hlen : line.length = width) (ha : a < width)
    (hpal : ∀ c, c < width → line.get? c = line.get? (width-1-c)) :
    ∀ c, c < width → ((line.set a col).set (width-1-a) col).get? c =
      ((line.set a col).set (width-1-a) col).get? (width-1-c) := by
  intro c hc
  have hbw : width - 1 - a < width := by omega
  have hget_b : ((line.set a col).set (width-1-a) col).get? (width-1-a) = some col :=
    getq_set_self _ _ _ (by simp [hlen]; omega)
  have hget_a : ((line.set a col).set (width-1-a) col).get? a = some col := by
    by_cases hab : width - 1 - a = a
    · rw [hab]
      have hcopy := hget_b
      rw [hab] at hcopy
      exact hcopy
    · rw [getq_set_ne _ _ _ _ hab]
      exact getq_set_self _ _ _ (by simp [hlen]; omega)
  by_cases hca : c = a
  · subst hca
    rw [hget_a, hget_b]
  · by_cases hcb : c = width - 1 - a
    · subst hcb
      have hmb : width - 1 - (width - 1 - a) = a := by omega
      rw [hmb, hget_b, hget_a]
    · have hmca : width - 1 - a ≠ width - 1 - c := by omega
      have hmcb : a ≠ width - 1 - c := by omega
      rw [getq_set_ne _ _ _ _ hmca, getq_set_ne _ _ _ _ hmcb,
        getq_set_ne _ _ _ _ (fun he => hcb he.symm),
        getq_set_ne _ _ _ _ (fun he => hca he.symm)]
      exact hpal c hc

theorem generate_row_fold_inv {σ : Type} (ops : RngOps σ) (width : ℕ)
    (palette : List Color) :
    ∀ (cs : List ℕ) (state : List Color × σ), (∀ x ∈ cs, x < width) →
      state.1.length = width →
      (∀ c, c < width → state.1.get? c = state.1.get? (width-1-c)) →
      ((cs.foldl (generate_row_step ops width palette) state).1.length = width ∧
        ∀ c, c < width →
          (cs.foldl (generate_row_step ops width palette) state).1.get? c =
          (cs.foldl (generate_row_step ops width palette) state).1.get? (width-1-c)) := by
  intro cs
  induction cs with
  | nil => intro state _ hlen hpal; exact ⟨hlen, hpal⟩
  | cons c0 rest ih =>
    intro state hcs hlen hpal
    rw [List.foldl_cons]
    apply ih _ (fun x hx => hcs x (List.mem_cons_of_mem _ hx))
    · simp only [generate_row_step]
      split
      · simp [hlen]
      · exact hlen
    · simp only [generate_row_step]
      split
      · exact pal_set width c0 state.1 _ hlen (hcs c0 (List.mem_cons_self _ _)) hpal
      · exact hpal

theorem generate_row_length {σ : Type} (ops : RngOps σ) (width : ℕ)
    (background : Color) (palette : List Color) (rng : σ) :
    (generate_row ops width background palette rng).1.length = width := by
  unfold generate_row
  refine (generate_row_fold_inv ops width palette _ _ ?_ ?_ ?_).1
  · intro x hx
    have := List.mem_range.mp hx
    omega
  · simp
  · intro c hc
    rw [getq_replicate _ _ _ hc, getq_replicate _ _ _ (by omega : width - 1 - c < width)]

theorem generate_row_palindrome {σ : Type} (ops : RngOps σ) (width : ℕ)
    (background : Color) (palette : List Color) (rng : σ) :
    ∀ c, c < width → (generate_row ops width background palette rng).1.get? c =
      (generate_row ops width background palette rng).1.get? (width-1-c) := by
  unfold generate_row
  refine (generate_row_fold_inv ops width palette _ _ ?_ ?_ ?_).2
  · intro x hx
    have := List.mem_range.mp hx
    omega
  · simp
  · intro c hc
    rw [getq_replicate _ _ _ hc, getq_replicate _ _ _ (by omega : width - 1 - c < width)]

theorem sym_append (width m : ℕ) (data row : List Color)
    (hlen : data.length = width * m) (hrow : row.length = width)
    (hdata : ∀ r c, c < width →
      data.get? (width*r+c) = data.get? (width*r+(width-1-c)))
    (hpal : ∀ c, c < width → row.get? c = row.get? (width-1-c)) :
    ∀ r c, c < width →
      (data ++ row).get? (width*r+c) = (data ++ row).get? (width*r+(width-1-c)) := by
  intro r c hc
  have hmc : width - 1 - c < width := by omega
  rcases Nat.lt_trichotomy r m with hr | hr | hr
  · have h1 : width*r+c < data.length := by
      rw [hlen]
      exact index_lt_of_lt _ _ _ _ hr hc
    have h2 : width*r+(width-1-c) < data.length := by
      rw [hlen]
      exact index_lt_of_lt _ _ _ _ hr hmc
    rw [getq_append_left _ _ _ h1, getq_append_left _ _ _ h2]
    exact hdata r c hc
  · subst hr
    have h1 : data.length ≤ width*r+c := by omega
    have h2 : data.length ≤ width*r+(width-1-c) := by omega
    rw [getq_append_right _ _ _ h1, getq_append_right _ _ _ h2]
    have e1 : width*r+c - data.length = c := by omega
    have e2 : width*r+(width-1-c) - data.length = width-1-c := by omega
    rw [e1, e2]
    exact hpal c hc
  · have hble : width * (m+1) ≤ width * r := Nat.mul_le_mul_left _ hr
    have he : width * (m+1) = width * m + width := by ring
    have h1 : (data ++ row).length ≤ width*r+c := by
      rw [List.length_append, hlen, hrow]
      omega
    have h2 : (data ++ row).length ≤ width*r+(width-1-c) := by
      rw [List.length_append, hlen, hrow]
      omega
    rw [getq_eq_none _ _ h1, getq_eq_none _ _ h2]

theorem generate_sprite_fold_inv {σ : Type} (ops : RngOps σ) (width : ℕ)
    (background : Color) (palette : List Color) :
    ∀ (ls : List ℕ) (state : List Color × σ) (m : ℕ),
      state.1.length = width * m →
      (∀ r c, c < width →
        state.1.get? (width*r+c) = state.1.get? (width*r+(width-1-c))) →
      (∃ k, (ls.foldl (generate_sprite_step ops width background palette) state).1.length =
        width * k) ∧
      (∀ r c, c < width →
        (ls.foldl (generate_sprite_step ops width background palette) state).1.get? (width*r+c) =
        (ls.foldl (generate_sprite_step ops width background palette) state).1.get? (width*r+(width-1-c))) := by
  intro ls
  induction ls with
  | nil => intro state m hlen hsym; exact ⟨⟨m, hlen⟩, hsym⟩
  | cons l0 rest ih =>
    intro state m hlen hsym
    rw [List.foldl_cons]
    apply ih _ (m + 1)
    · show (state.1 ++ (generate_row ops width background palette state.2).1).length =
        width * (m + 1)
      rw [List.length_append, hlen, generate_row_length]
      ring
    · show ∀ r c, c < width →
        (state.1 ++ (generate_row ops width background palette state.2).1).get? (width*r+c) =
        (state.1 ++ (generate_row ops width background palette state.2).1).get? (width*r+(width-1-c))
      exact sym_append width m state.1 _ hlen (generate_row_length _ _ _ _ _)
        hsym (generate_row_palindrome _ _ _ _ _)

/-- C6: left-right symmetry of every generated (pre-denoise) sprite: for
every abstract RNG, seed state, nonempty dimensions and palette, the pixel
at `(row, column)` equals the pixel at `(row, width-1-column)`. -/
theorem generate_sprite_symmetric {σ : Type} (ops : RngOps σ)
    (width height : ℕ) (background : Color) (palette : List Color) (rng : σ)
    (row column : ℕ) (_hr : row < height) (hc : column < width) :
    (generate_sprite ops width height background palette rng).1.get_at row column =
    (generate_sprite ops width height background palette rng).1.get_at row
      (width - 1 - column) := by
  unfold generate_sprite Sprite.get_at matrix_index_to_vec
  simp only
  rw [getD_eq_getq, getD_eq_getq]
  have hinv := (generate_sprite_fold_inv ops width background palette
    (List.range height) ([], rng) 0 (by simp) (by intro r c _; rfl)).2
  rw [hinv row column hc]

/-! ### Sheet compositor (`src/main.rs`) and the main pipeline -/

/-- Sheet width `sprite_width * sprite_columns + (sprite_columns + 1) * margin`
computed in `generate_pixels` and `main`. -/
def image_width (args : Arguments) : ℕ :=
  args.sprite_width * args.sprite_columns + (args.sprite_columns + 1) * args.margin

/-- Sheet height `sprite_height * sprite_lines + (sprite_lines + 1) * margin`. -/
def image_height (args : Arguments) : ℕ :=
  args.sprite_height * args.sprite_lines + (args.sprite_lines + 1) * args.margin

/-- Innermost loop body of `generate_pixels` (`src/main.rs`): copy one
sprite pixel to the sheet at `(start_line + sl, start_column + sc)`,
skipping writes that would fall outside the sheet (defensive clipping). -/
def generate_pixels_inner (args : Arguments) (sprite : Sprite)
    (start_line start_column sc : ℕ) (image : List Color) (sl : ℕ) : List Color :=
  if start_line + sl < image_height args ∧ start_column + sc < image_width args then
    image.set (matrix_index_to_vec (image_width args) (start_line + sl) (start_column + sc))
      (sprite.get_at sl sc)
  else image

/-- Middle loop of `generate_pixels`: for one sheet column offset `sc`,
copy the sprite column over all `sl` in `0..sprite_height`. -/
def generate_pixels_col (args : Arguments) (sprite : Sprite)
    (start_line start_column : ℕ) (image : List Color) (sc : ℕ) : List Color :=
  (List.range args.sprite_height).foldl
    (generate_pixels_inner args sprite start_line start_column sc) image

/-- Outer loop body of `generate_pixels`: place sprite number
`sprite_index` at its grid cell
`(sprite_index / columns, sprite_index % columns)` with top-left corner
`(cell_line * (sprite_height + margin) + margin,
cell_column * (sprite_width + margin) + margin)`. -/
def generate_pixels_sprite (args : Arguments) (sprites : List Sprite)
    (image : List Color) (sprite_index : ℕ) : List Color :=
  (List.range args.sprite_width).foldl
    (generate_pixels_col args (sprites.getD sprite_index (Sprite.mk 0 0 []))
      ((vec_index_to_matrix args.sprite_columns sprite_index).1 *
        (args.sprite_height + args.margin) + args.margin)
      ((vec_index_to_matrix args.sprite_columns sprite_index).2 *
        (args.sprite_width + args.margin) + args.margin)) image

/-- `generate_pixels` from `src/main.rs`: a sheet buffer of
`image_width * image_height` background pixels into which every sprite is
copied in index order. -/
def generate_pixels (args : Arguments) (sprites : List Sprite)
    (background : Color) : List Color :=
  (List.range sprites.length).foldl (generate_pixels_sprite args sprites)
    (List.replicate (image_width args * image_height args) background)

/-- The core of `main` (`src/main.rs`) after a seed is fixed: seed the RNG,
generate the sprite matrix, apply the two denoising passes, and composite
the sheet.  `none` models the panic on an empty palette set. -/
def main_generate {σ : Type} (ops : RngOps σ) (args : Arguments)
    (palettes : List (List Color)) (seed : List ℕ) : Option (List Color) :=
  match generate_sprite_matrix ops args Color.default palettes
    (ops.from_seed seed) with
  | none => none
  | some res =>
    some (generate_pixels args (denoise_passes Color.default res.1) Color.default)

/-- A simple deterministic `RngOps` instance (a counter state), used to
instantiate witnesses; the claims hold for every instance. -/
def counter_rng : RngOps ℕ where
  from_seed s := s.foldl (fun a b => a + b) 0
  sample_weighted s _ _ := (s % 2, s + 1)
  choose_idx s n := (s % n, s + 1)
  sample_weighted_lt := fun s _ _ => Nat.mod_lt _ (by omega)
  choose_idx_lt := fun _ n hn => Nat.mod_lt _ hn

/-! ### Claim theorems: generator -/

/-- C2: determinism of the whole generation pipeline — with any
deterministic RNG implementation, two runs with equal seeds, equal palette
sets and equal layout parameters produce identical sheet pixel buffers;
the sheet is a pure function of those inputs. -/
theorem generation_deterministic {σ : Type} (ops : RngOps σ)
    (args1 args2 : Arguments) (palettes1 palettes2 : List (List Color))
    (seed1 seed2 : List ℕ) (hseed : seed1 = seed2)
    (hpal : palettes1 = palettes2) (hargs : args1 = args2) :
    main_generate ops args1 palettes1 seed1 =
      main_generate ops args2 palettes2 seed2 := by
  rw [hseed, hpal, hargs]

/-- Witness for C2 at a concrete RNG, layout, palette set and seed. -/
theorem generation_deterministic_witness :
    main_generate counter_rng ⟨2, 2, 1, 1, 2⟩ [[⟨255, 0, 0⟩]]
      (List.replicate 32 0) =
    main_generate counter_rng ⟨2, 2, 1, 1, 2⟩ [[⟨255, 0, 0⟩]]
      (List.replicate 32 0) :=
  generation_deterministic counter_rng _ _ _ _ _ _ rfl rfl rfl

/-- Witness for C6: a concrete 2×1 sprite generated with the counter RNG
has its two mirror pixels equal. -/
theorem generate_sprite_symmetric_witness :
    (generate_sprite counter_rng 2 1 Color.default [⟨255, 0, 0⟩] 0).1.get_at 0 0 =
    (generate_sprite counter_rng 2 1 Color.default [⟨255, 0, 0⟩] 0).1.get_at 0
      (2 - 1 - 0) :=
  generate_sprite_symmetric counter_rng 2 1 Color.default [⟨255, 0, 0⟩] 0 0 0
    (by decide) (by decide)

/-- C7 counterexample: with width 4, the edge column pair (`c = 0`, mirror
3) paints with probability 1/8, strictly LESS than the 3/8 of the
center-adjacent pair (`c = 1`, mirror 2) — foreground placement is sparser
toward the edges, not denser as the claim states. -/
theorem paint_prob_lower_at_edge :
    paint_weights 4 0 = (1/8, 7/8) ∧ paint_prob 4 0 = 1/8 ∧
    paint_prob 4 1 = 3/8 ∧ paint_prob 4 0 < paint_prob 4 1 := by
  norm_num [paint_prob, paint_weights, factor]

/-- C7 amended: the weighted boolean does use weights
`[0.5 - 0.5*f, 0.5 + 0.5*f]` over `{paint, skip}` with `f = (m-c)/width`,
so the paint probability equals `0.5 - 0.5*f`; since `f` is largest at the
edges, the probability of painting strictly INCREASES from the edge toward
the center (lower density at the edges, higher toward the center). -/
theorem paint_prob_denser_at_center (width c1 c2 : ℕ) (hw : 0 < width)
    (h12 : c1 < c2) (h2 : c2 < (width + 1) / 2) :
    paint_prob width c1 = 1/2 - 1/2 * factor width c1 ∧
    paint_prob width c1 < paint_prob width c2 := by
  have hprob : ∀ c : ℕ, paint_prob width c = 1/2 - 1/2 * factor width c := by
    intro c
    unfold paint_prob
    have hsum : (paint_weights width c).1 + (paint_weights width c).2 = 1 := by
      unfold paint_weights
      ring
    rw [hsum, div_one]
    rfl
  refine ⟨hprob c1, ?_⟩
  rw [hprob c1, hprob c2]
  have hfact : factor width c2 < factor width c1 := by
    unfold factor
    have hn : (width - 1 - c2 - c2 : ℕ) < (width - 1 - c1 - c1 : ℕ) := by omega
    have hwq : (0:ℚ) < (width : ℚ) := by exact_mod_cast hw
    gcongr
  linarith

/-- Witness for C7's amended statement at width 4, columns 0 and 1. -/
theorem paint_prob_denser_at_center_witness :
    paint_prob 4 0 = 1/2 - 1/2 * factor 4 0 ∧ paint_prob 4 0 < paint_prob 4 1 :=
  paint_prob_denser_at_center 4 0 1 (by decide) (by decide) (by decide)

/-! ### Compositor lemmas -/

theorem foldl_len {α β : Type} (f : List α → β → List α)
    (hf : ∀ x b, (f x b).length = x.length) :
    ∀ (L : List β) (x : List α), (L.foldl f x).length = x.length := by
  intro L
  induction L with
  | nil => intro x; rfl
  | cons b rest ih => intro x; rw [List.foldl_cons, ih, hf]

theorem pixels_inner_len (args : Arguments) (sprite : Sprite)
    (start_line start_column sc : ℕ) (image : List Color) (sl : ℕ) :
    (generate_pixels_inner args sprite start_line start_column sc image sl).length =
      image.length := by
  unfold generate_pixels_inner
  split
  · simp
  · rfl

theorem pixels_col_len (args : Arguments) (sprite : Sprite)
    (start_line start_column : ℕ) (image : List Color) (sc : ℕ) :
    (generate_pixels_col args sprite start_line start_column image sc).length =
      image.length :=
  foldl_len _ (pixels_inner_len args sprite start_line start_column sc) _ image

theorem pixels_sprite_len (args : Arguments) (sprites : List Sprite)
    (image : List Color) (sprite_index : ℕ) :
    (generate_pixels_sprite args sprites image sprite_index).length =
      image.length :=
  foldl_len _ (pixels_col_len args _ _ _) _ image

/-- Pointwise effect of the innermost copy loop over an arbitrary list of
row offsets `sl`. -/
theorem pixels_inner_get (args : Arguments) (sprite : Sprite)
    (start_line start_column sc : ℕ) :
    ∀ (sls : List ℕ) (image : List Color) (l c : ℕ),
      image.length = image_width args * image_height args →
      l < image_height args → c < image_width args →
      (sls.foldl (generate_pixels_inner args sprite start_line start_column sc)
          image).get? (matrix_index_to_vec (image_width args) l c) =
        if ∃ sl ∈ sls, start_line + sl = l ∧ start_column + sc = c
        then some (sprite.get_at (l - start_line) sc)
        else image.get? (matrix_index_to_vec (image_width args) l c) := by
  intro sls
  induction sls with
  | nil =>
    intro image l c _ _ _
    rw [List.foldl_nil, if_neg]
    rintro ⟨sl, hsl, _⟩
    exact List.not_mem_nil sl hsl
  | cons sl0 rest ih =>
    intro image l c hlen hl hc
    rw [List.foldl_cons]
    rw [ih _ l c (by rw [pixels_inner_len, hlen]) hl hc]
    by_cases h1 : ∃ sl ∈ rest, start_line + sl = l ∧ start_column + sc = c
    · rw [if_pos h1, if_pos ?hp1]
      case hp1 =>
        obtain ⟨sl, hsl, h⟩ := h1
        exact ⟨sl, List.mem_cons_of_mem _ hsl, h⟩
    · rw [if_neg h1]
      unfold generate_pixels_inner
      by_cases hcond : start_line + sl0 < image_height args ∧
          start_column + sc < image_width args
      · rw [if_pos hcond]
        by_cases hmatch : start_line + sl0 = l ∧ start_column + sc = c
        · have heq : matrix_index_to_vec (image_width args) (start_line + sl0)
              (start_column + sc) = matrix_index_to_vec (image_width args) l c := by
            rw [hmatch.1, hmatch.2]
          rw [heq, getq_set_self _ _ _
            (by rw [hlen]; exact index_lt_of_lt _ _ _ _ hl hc)]
          rw [if_pos ⟨sl0, List.mem_cons_self _ _, hmatch⟩]
          have hsl0 : sl0 = l - start_line := by omega
          rw [hsl0]
        · rw [getq_set_ne _ _ _ _ ?hne]
          case hne =>
            intro hidx
            have hinj := matrix_index_inj _ _ _ _ _ hcond.2 hc hidx
            exact hmatch ⟨hinj.1, hinj.2⟩
          rw [if_neg ?hnm]
          case hnm =>
            rintro ⟨sl, hsl, hmm⟩
            rcases List.mem_cons.mp hsl with h0 | hr
            · exact hmatch (h0 ▸ hmm)
            · exact h1 ⟨sl, hr, hmm⟩
      · rw [if_neg hcond, if_neg ?hnm2]
        case hnm2 =>
          rintro ⟨sl, hsl, hmm⟩
          rcases List.mem_cons.mp hsl with h0 | hr
          · subst h0
            exact hcond ⟨hmm.1 ▸ hl, hmm.2 ▸ hc⟩
          · exact h1 ⟨sl, hr, hmm⟩

/-- Pointwise effect of the middle copy loop over an arbitrary list of
column offsets `sc`. -/
theorem pixels_col_get (args : Arguments) (sprite : Sprite)
    (start_line start_column : ℕ) :
    ∀ (scs : List ℕ) (image : List Color) (l c : ℕ),
      image.length = image_width args * image_height args →
      l < image_height args → c < image_width args →
      (scs.foldl (generate_pixels_col args sprite start_line start_column)
          image).get? (matrix_index_to_vec (image_width args) l c) =
        if ∃ sc ∈ scs, ∃ sl, sl < args.sprite_height ∧ start_line + sl = l ∧
            start_column + sc = c
        then some (sprite.get_at (l - start_line) (c - start_column))
        else image.get? (matrix_index_to_vec (image_width args) l c) := by
  intro scs
  induction scs with
  | nil =>
    intro image l c _ _ _
    rw [List.foldl_nil, if_neg]
    rintro ⟨sc, hsc, _⟩
    exact List.not_mem_nil sc hsc
  | cons sc0 rest ih =>
    intro image l c hlen hl hc
    rw [List.foldl_cons]
    rw [ih _ l c (by rw [pixels_col_len, hlen]) hl hc]
    by_cases h1 : ∃ sc ∈ rest, ∃ sl, sl < args.sprite_height ∧
        start_line + sl = l ∧ start_column + sc = c
    · rw [if_pos h1, if_pos ?hp1]
      case hp1 =>
        obtain ⟨sc, hsc, h⟩ := h1
        exact ⟨sc, List.mem_cons_of_mem _ hsc, h⟩
    · rw [if_neg h1]
      unfold generate_pixels_col
      rw [pixels_inner_get args sprite start_line start_column sc0
        (List.range args.sprite_height) image l c hlen hl hc]
      by_cases h2 : ∃ sl ∈ List.range args.sprite_height,
          start_line + sl = l ∧ start_column + sc0 = c
      · obtain ⟨sl, hslm, hm1, hm2⟩ := h2
        rw [if_pos ⟨sl, hslm, hm1, hm2⟩]
        rw [if_pos ⟨sc0, List.mem_cons_self _ _, sl, List.mem_range.mp hslm, hm1, hm2⟩]
        have hsc0 : sc0 = c - start_column := by omega
        rw [hsc0]
      · rw [if_neg h2, if_neg ?hnm]
        case hnm =>
          rintro ⟨sc, hsc, sl, hslh, hm1, hm2⟩
          rcases List.mem_cons.mp hsc with h0 | hr
          · subst h0
            exact h2 ⟨sl, List.mem_range.mpr hslh, hm1, hm2⟩
          · exact h1 ⟨sc, hr, sl, hslh, hm1, hm2⟩

/-- Sprite number `index` covers sheet position `(l, c)`: some in-range
sprite offset `(sl, sc)` lands there under the placement
`startLine = (index / columns) * (spriteHeight + margin) + margin`,
`startColumn = (index % columns) * (spriteWidth + margin) + margin`. -/
def covers (args : Arguments) (index l c : ℕ) : Prop :=
  ∃ sc, sc < args.sprite_width ∧ ∃ sl, sl < args.sprite_height ∧
    index / args.sprite_columns * (args.sprite_height + args.margin) +
      args.margin + sl = l ∧
    index % args.sprite_columns * (args.sprite_width + args.margin) +
      args.margin + sc = c

/-- A sheet position not covered by any sprite in the list keeps its
previous value through the outer copy loop. -/
theorem pixels_sprite_fold_miss (args : Arguments) (sprites : List Sprite) :
    ∀ (idxs : List ℕ) (image : List Color) (l c : ℕ),
      image.length = image_width args * image_height args →
      l < image_height args → c < image_width args →
      (∀ i ∈ idxs, ¬ covers args i l c) →
      (idxs.foldl (generate_pixels_sprite args sprites) image).get?
          (matrix_index_to_vec (image_width args) l c) =
        image.get? (matrix_index_to_vec (image_width args) l c) := by
  intro idxs
  induction idxs with
  | nil => intro image l c _ _ _ _; rfl
  | cons j rest ih =>
    intro image l c hlen hl hc hnone
    rw [List.foldl_cons]
    rw [ih _ l c (by rw [pixels_sprite_len, hlen]) hl hc
      (fun i hi => hnone i (List.mem_cons_of_mem _ hi))]
    unfold generate_pixels_sprite
    rw [pixels_col_get args _ _ _ (List.range args.sprite_width) image l c hlen hl hc]
    rw [if_neg ?hn]
    case hn =>
      rintro ⟨sc, hscm, sl, hsl, hm1, hm2⟩
      exact hnone j (List.mem_cons_self _ _)
        ⟨sc, List.mem_range.mp hscm, sl, hsl, hm1, hm2⟩

/-- A sheet position covered by exactly one sprite index ends up holding
that sprite's pixel. -/
theorem pixels_sprite_fold_hit (args : Arguments) (sprites : List Sprite)
    (i0 : ℕ) :
    ∀ (idxs : List ℕ) (image : List Color) (l c : ℕ),
      image.length = image_width args * image_height args →
      l < image_height args → c < image_width args →
      i0 ∈ idxs → covers args i0 l c →
      (∀ i ∈ idxs, covers args i l c → i = i0) →
      (idxs.foldl (generate_pixels_sprite args sprites) image).get?
          (matrix_index_to_vec (image_width args) l c) =
        some ((sprites.getD i0 (Sprite.mk 0 0 [])).get_at
          (l - (i0 / args.sprite_columns * (args.sprite_height + args.margin) +
            args.margin))
          (c - (i0 % args.sprite_columns * (args.sprite_width + args.margin) +
            args.margin))) := by
  intro idxs
  induction idxs with
  | nil => intro image l c _ _ _ hmem _ _; exact absurd hmem (List.not_mem_nil i0)
  | cons j rest ih =>
    intro image l c hlen hl hc hmem hcov hag
    rw [List.foldl_cons]
    by_cases hjc : covers args j l c
    · have hji : j = i0 := hag j (List.mem_cons_self _ _) hjc
      subst hji
      have hstep : (generate_pixels_sprite args sprites image j).get?
          (matrix_index_to_vec (image_width args) l c) =
          some ((sprites.getD j (Sprite.mk 0 0 [])).get_at
            (l - (j / args.sprite_columns * (args.sprite_height + args.margin) +
              args.margin))
            (c - (j % args.sprite_columns * (args.sprite_width + args.margin) +
              args.margin))) := by
        unfold generate_pixels_sprite
        rw [pixels_col_get args _ _ _ (List.range args.sprite_width) image l c
          hlen hl hc]
        rw [if_pos ?hcv]
        case hcv =>
          obtain ⟨sc, hscw, sl, hslh, hm1, hm2⟩ := hcov
          exact ⟨sc, List.mem_range.mpr hscw, sl, hslh, hm1, hm2⟩
        rfl
      by_cases hjr : j ∈ rest
      · exact ih _ l c (by rw [pixels_sprite_len, hlen]) hl hc hjr hcov
          (fun i hi hci => hag i (List.mem_cons_of_mem _ hi) hci)
      · rw [pixels_sprite_fold_miss args sprites rest _ l c
          (by rw [pixels_sprite_len, hlen]) hl hc ?hnone]
        · exact hstep
        case hnone =>
          intro i hi hci
          have hii := hag i (List.mem_cons_of_mem _ hi) hci
          exact absurd (hii ▸ hi) hjr
    · have hi0r : i0 ∈ rest := by
        rcases List.mem_cons.mp hmem with h0 | hr
        · exact absurd (h0 ▸ hcov) hjc
        · exact hr
      exact ih _ l c (by rw [pixels_sprite_len, hlen]) hl hc hi0r hcov
        (fun i hi hci => hag i (List.mem_cons_of_mem _ hi) hci)

/-- Under the margin layout, two sprite indices covering the same sheet
position are equal. -/
theorem covers_unique (args : Arguments) (i1 i2 l c : ℕ)
    (h1 : covers args i1 l c) (h2 : covers args i2 l c) : i1 = i2 := by
  obtain ⟨sc1, hsc1, sl1, hsl1, hl1, hc1⟩ := h1
  obtain ⟨sc2, hsc2, sl2, hsl2, hl2, hc2⟩ := h2
  have cm1 : (args.sprite_height + args.margin) * (i1 / args.sprite_columns) =
      i1 / args.sprite_columns * (args.sprite_height + args.margin) :=
    Nat.mul_comm _ _
  have cm2 : (args.sprite_height + args.margin) * (i2 / args.sprite_columns) =
      i2 / args.sprite_columns * (args.sprite_height + args.margin) :=
    Nat.mul_comm _ _
  have hld : (args.sprite_height + args.margin) * (i1 / args.sprite_columns) +
      (args.margin + sl1) =
      (args.sprite_height + args.margin) * (i2 / args.sprite_columns) +
      (args.margin + sl2) := by omega
  have hlq := matrix_index_inj (args.sprite_height + args.margin) _ _ _ _
    (by omega) (by omega) hld
  have cm3 : (args.sprite_width + args.margin) * (i1 % args.sprite_columns) =
      i1 % args.sprite_columns * (args.sprite_width + args.margin) :=
    Nat.mul_comm _ _
  have cm4 : (args.sprite_width + args.margin) * (i2 % args.sprite_columns) =
      i2 % args.sprite_columns * (args.sprite_width + args.margin) :=
    Nat.mul_comm _ _
  have hcd : (args.sprite_width + args.margin) * (i1 % args.sprite_columns) +
      (args.margin + sc1) =
      (args.sprite_width + args.margin) * (i2 % args.sprite_columns) +
      (args.margin + sc2) := by omega
  have hcq := matrix_index_inj (args.sprite_width + args.margin) _ _ _ _
    (by omega) (by omega) hcd
  have d1 := Nat.div_add_mod i1 args.sprite_columns
  have d2 := Nat.div_add_mod i2 args.sprite_columns
  have hmul : args.sprite_columns * (i1 / args.sprite_columns) =
      args.sprite_columns * (i2 / args.sprite_columns) := by
    rw [hlq.1]
  omega

/-- Any in-range cell position is inside the sheet: together with a cell
index below the grid count, the placement offset stays below the sheet
dimension. -/
theorem start_bound (li lines sh m sl : ℕ) (hli : li < lines) (hsl : sl < sh) :
    li * (sh + m) + m + sl < sh * lines + (lines + 1) * m := by
  have h1 : (li + 1) * (sh + m) ≤ lines * (sh + m) := Nat.mul_le_mul_right _ hli
  have e1 : (li + 1) * (sh + m) = li * (sh + m) + sh + m := by ring
  have e2 : lines * (sh + m) = sh * lines + lines * m := by ring
  have e3 : (lines + 1) * m = lines * m + m := by ring
  omega

/-- The solid 2×2 sprite of color `(255, 0, 0)` from the claim's example. -/
def spr_red : Sprite := ⟨2, 2, List.replicate 4 ⟨255, 0, 0⟩⟩

/-- The expected 6×6 sheet of the example: all background except the red
block at rows 2-3, columns 2-3 (row-major indices 14, 15, 20, 21). -/
def sheet6x6_expected : List Color :=
  List.replicate 14 Color.default ++ [⟨255, 0, 0⟩, ⟨255, 0, 0⟩] ++
    List.replicate 4 Color.default ++ [⟨255, 0, 0⟩, ⟨255, 0, 0⟩] ++
    List.replicate 14 Color.default

/-- C8: compositor layout — the sheet buffer has
`cols * spriteWidth + (cols+1) * margin` by
`lines * spriteHeight + (lines+1) * margin` pixels; sprite number `index`
is copied with its top-left corner at
`startLine = (index / columns) * (spriteHeight + margin) + margin`,
`startColumn = (index % columns) * (spriteWidth + margin) + margin`;
positions covered by no sprite keep the background; and the concrete
2×2-sprite, 1×1-grid, margin-2 example yields the expected 6×6 sheet with
a red block at (2,2)-(3,3) and background margins. -/
theorem generate_pixels_spec :
    (∀ (args : Arguments) (sprites : List Sprite) (background : Color),
      0 < args.sprite_columns →
      sprites.length = args.sprite_columns * args.sprite_lines →
      ((generate_pixels args sprites background).length =
        image_width args * image_height args ∧
      (∀ index sl sc, index < sprites.length → sl < args.sprite_height →
        sc < args.sprite_width →
        (generate_pixels args sprites background).get?
          (matrix_index_to_vec (image_width args)
            (index / args.sprite_columns * (args.sprite_height + args.margin) +
              args.margin + sl)
            (index % args.sprite_columns * (args.sprite_width + args.margin) +
              args.margin + sc)) =
          some ((sprites.getD index (Sprite.mk 0 0 [])).get_at sl sc)) ∧
      (∀ l c, l < image_height args → c < image_width args →
        (∀ index, index < sprites.length → ¬ covers args index l c) →
        (generate_pixels args sprites background).get?
          (matrix_index_to_vec (image_width args) l c) = some background))) ∧
    generate_pixels ⟨2, 2, 1, 1, 2⟩ [spr_red] Color.default = sheet6x6_expected := by
  constructor
  · intro args sprites background hcols hnum
    refine ⟨?_, ?_, ?_⟩
    · unfold generate_pixels
      rw [foldl_len _ (pixels_sprite_len args sprites) _ _]
      simp
    · intro index sl sc hidx hsl hsc
      have hli : index / args.sprite_columns < args.sprite_lines := by
        rw [Nat.div_lt_iff_lt_mul hcols]
        rw [hnum] at hidx
        have hcomm : args.sprite_columns * args.sprite_lines =
            args.sprite_lines * args.sprite_columns := Nat.mul_comm _ _
        omega
      have hci : index % args.sprite_columns < args.sprite_columns :=
        Nat.mod_lt _ hcols
      have hl : index / args.sprite_columns * (args.sprite_height + args.margin) +
          args.margin + sl < image_height args :=
        start_bound _ _ _ _ _ hli hsl
      have hc : index % args.sprite_columns * (args.sprite_width + args.margin) +
          args.margin + sc < image_width args :=
        start_bound _ _ _ _ _ hci hsc
      unfold generate_pixels
      rw [pixels_sprite_fold_hit args sprites index (List.range sprites.length)
        _ _ _ (by simp) hl hc (List.mem_range.mpr hidx)
        ⟨sc, hsc, sl, hsl, rfl, rfl⟩
        (fun i _ hci2 => covers_unique args i index _ _ hci2
          ⟨sc, hsc, sl, hsl, rfl, rfl⟩)]
      have e1 : index / args.sprite_columns * (args.sprite_height + args.margin) +
          args.margin + sl -
          (index / args.sprite_columns * (args.sprite_height + args.margin) +
            args.margin) = sl := by omega
      have e2 : index % args.sprite_columns * (args.sprite_width + args.margin) +
          args.margin + sc -
          (index % args.sprite_columns * (args.sprite_width + args.margin) +
            args.margin) = sc := by omega
      rw [e1, e2]
    · intro l c hl hc hnone
      unfold generate_pixels
      rw [pixels_sprite_fold_miss args sprites (List.range sprites.length)
        _ l c (by simp) hl hc
        (fun i hi => hnone i (List.mem_range.mp hi))]
      exact getq_replicate _ _ _ (by exact index_lt_of_lt _ _ _ _ hl hc)
  · decide

/-- Witness for C8's general part: sprite 0 of the example lands with its
top-left corner at sheet position (2, 2). -/
theorem generate_pixels_spec_witness :
    (generate_pixels ⟨2, 2, 1, 1, 2⟩ [spr_red] Color.default).get?
      (matrix_index_to_vec (image_width ⟨2, 2, 1, 1, 2⟩)
        (0 / 1 * (2 + 2) + 2 + 0) (0 % 1 * (2 + 2) + 2 + 0)) =
      some (([spr_red].getD 0 (Sprite.mk 0 0 [])).get_at 0 0) :=
  (generate_pixels_spec.1 ⟨2, 2, 1, 1, 2⟩ [spr_red] Color.default (by decide)
    (by decide)).2.1 0 0 0 (by decide) (by decide) (by decide)

/-! ### Palette file parsing (`src/main.rs`) -/

/-- ASCII whitespace as matched by `str::trim` and the `\s` class of the
`regex` crate (the palette files of interest are ASCII). -/
def is_ws (c : Char) : Bool :=
  c.toNat = 32 || c.toNat = 9 || c.toNat = 10 || c.toNat = 13 ||
    c.toNat = 11 || c.toNat = 12

/-- Segments of a character list between `\n` separators. -/
def split_newline : List Char → List (List Char)
  | [] => [[]]
  | c :: rest =>
    match split_newline rest with
    | [] => [[]]
    | first :: others =>
      if c = '\n' then [] :: first :: others
      else (c :: first) :: others

/-- Model of Rust's `str::lines()`: split on `\n`, with no trailing empty
segment for a trailing newline (any `\r` is removed by the later trim). -/
def rust_lines (s : List Char) : List (List Char) :=
  let parts := split_newline s
  if parts.getLast? = some [] then parts.dropLast else parts

/-- Model of Rust's `str::trim()`: strip whitespace from both ends. -/
def rust_trim (s : List Char) : List Char :=
  ((s.dropWhile (fun c => is_ws c)).reverse.dropWhile (fun c => is_ws c)).reverse

/-- Model of the `\s+` regex split used on one trimmed non-blank line:
maximal whitespace runs separate the tokens (on a trimmed line this equals
`Regex::new(r"\s+").split(line)`). -/
def split_ws (s : List Char) : List (List Char) :=
  (s.splitOnP (fun c => is_ws c)).filter (fun t => ¬t.isEmpty)

/-- One decimal digit for `str::parse::<u8>()`. -/
def dec_digit_val (c : Char) : Option ℕ :=
  if 48 ≤ c.toNat ∧ c.toNat ≤ 57 then some (c.toNat - 48) else none

/-- Digit part of `str::parse::<u8>()`: at least one decimal digit, value
below 256. -/
def from_dec_digits (ds : List Char) : Option ℕ :=
  if ds.isEmpty then none
  else
    match ds.foldl (fun acc c => match acc, dec_digit_val c with
        | some a, some v => some (10 * a + v)
        | _, _ => none) (some 0) with
    | none => none
    | some v => if v < 256 then some v else none

/-- Model of `str::parse::<u8>()` (`u8::from_str`): an optional leading
`+` sign, then decimal digits fitting in `u8`. -/
def from_str_u8 (cs : List Char) : Option ℕ :=
  from_dec_digits (if cs.head? = some '+' then cs.tail else cs)

/-- The non-blank-line branch of `parse_palette_file` (`src/main.rs`):
`split[0]`, `split[1]`, `split[2]` parsed as `u8` channels.  `none` models
the Rust panic (index out of bounds for a missing token, `unwrap` on an
unparseable or out-of-range token). -/
def parse_palette_line (line : List Char) : Option Color :=
  match (split_ws line).get? 0, (split_ws line).get? 1, (split_ws line).get? 2 with
  | some s0, some s1, some s2 =>
    match from_str_u8 s0, from_str_u8 s1, from_str_u8 s2 with
    | some r, some g, some b => some ⟨r, g, b⟩
    | _, _, _ => none
  | _, _, _ => none

/-- The line loop of `parse_palette_file`: blank lines flush the current
non-empty group, other lines append a parsed color to it; the trailing
non-empty group is flushed at the end.  `none` models a panic on a
malformed line. -/
def parse_palette_loop : List (List Char) → List (List Color) → List Color →
    Option (List (List Color))
  | [], palettes, palette =>
    some (if palette.isEmpty then palettes else palettes ++ [palette])
  | line :: rest, palettes, palette =>
    if line.isEmpty then
      if palette.isEmpty then parse_palette_loop rest palettes palette
      else parse_palette_loop rest (palettes ++ [palette]) []
    else
      match parse_palette_line line with
      | none => none
      | some color => parse_palette_loop rest palettes (palette ++ [color])

/-- `parse_palette_file` from `src/main.rs`: split into trimmed lines and
run the grouping loop. -/
def parse_palette_file (s : List Char) : Option (List (List Color)) :=
  parse_palette_loop ((rust_lines s).map rust_trim) [] []

/-! ### Palette parsing lemmas -/

theorem parse_palette_line_bad (line : List Char)
    (h : (split_ws line).length < 3 ∨
      ∃ i, i < 3 ∧ ∃ t, (split_ws line).get? i = some t ∧ from_str_u8 t = none) :
    parse_palette_line line = none := by
  unfold parse_palette_line
  rcases h with hlen | ⟨i, hi3, t, hti, htn⟩
  · have h2 : (split_ws line).get? 2 = none := getq_eq_none _ _ (by omega)
    rw [h2]
    rcases h0 : (split_ws line).get? 0 with _ | s0 <;>
      rcases h1 : (split_ws line).get? 1 with _ | s1 <;> rfl
  · rcases h0 : (split_ws line).get? 0 with _ | s0
    · rcases h1 : (split_ws line).get? 1 with _ | s1 <;>
        rcases h2 : (split_ws line).get? 2 with _ | s2 <;> rfl
    · rcases h1 : (split_ws line).get? 1 with _ | s1
      · rcases h2 : (split_ws line).get? 2 with _ | s2 <;> rfl
      · rcases h2 : (split_ws line).get? 2 with _ | s2
        · rfl
        · show (match from_str_u8 s0, from_str_u8 s1, from_str_u8 s2 with
            | some r, some g, some b => some (Color.mk r g b)
            | _, _, _ => none) = none
          interval_cases i
          · rw [h0] at hti
            injection hti with he
            rw [← he] at htn
            rw [htn]
          · rw [h1] at hti
            injection hti with he
            rw [← he] at htn
            rw [htn]
            all_goals (rcases from_str_u8 s0 <;> rcases from_str_u8 s1 <;>
              rcases from_str_u8 s2 <;> rfl)
          · rw [h2] at hti
            injection hti with he
            rw [← he] at htn
            rw [htn]
            all_goals (rcases from_str_u8 s0 <;> rcases from_str_u8 s1 <;>
              rcases from_str_u8 s2 <;> rfl)

theorem parse_palette_loop_bad :
    ∀ (ls : List (List Char)) (palettes : List (List Color))
      (palette : List Color),
      (∃ line ∈ ls, ¬line.isEmpty ∧ parse_palette_line line = none) →
      parse_palette_loop ls palettes palette = none := by
  intro ls
  induction ls with
  | nil =>
    intro _ _ h
    obtain ⟨line, hl, _⟩ := h
    exact absurd hl (List.not_mem_nil _)
  | cons l rest ih =>
    intro palettes palette h
    unfold parse_palette_loop
    by_cases hle : l.isEmpty
    · rw [if_pos hle]
      have hrest : ∃ line ∈ rest, ¬line.isEmpty ∧ parse_palette_line line = none := by
        obtain ⟨line, hl, hne, hpn⟩ := h
        rcases List.mem_cons.mp hl with h0 | hr
        · exact absurd (h0 ▸ hle) hne
        · exact ⟨line, hr, hne, hpn⟩
      split
      · exact ih _ _ hrest
      · exact ih _ _ hrest
    · rw [if_neg hle]
      by_cases hpl : parse_palette_line l = none
      · rw [hpl]
      · obtain ⟨line, hl, hne, hpn⟩ := h
        have hlr : line ∈ rest := by
          rcases List.mem_cons.mp hl with h0 | hr
          · exact absurd (h0 ▸ hpn) hpl
          · exact hr
        rcases hc : parse_palette_line l with _ | color
        · exact absurd hc hpl
        · exact ih _ _ ⟨line, hlr, hne, hpn⟩

theorem foldl_none_pres {α β : Type} (f : Option α → β → Option α)
    (hf : ∀ b, f none b = none) : ∀ L : List β, L.foldl f none = none := by
  intro L
  induction L with
  | nil => rfl
  | cons b rest ih => rw [List.foldl_cons, hf]; exact ih

theorem generate_sprite_matrix_empty {σ : Type} (ops : RngOps σ)
    (args : Arguments) (background : Color) (rng : σ)
    (hcells : 0 < args.sprite_columns * args.sprite_lines) :
    generate_sprite_matrix ops args background [] rng = none := by
  unfold generate_sprite_matrix
  obtain ⟨m, hm⟩ : ∃ m, args.sprite_columns * args.sprite_lines = m + 1 :=
    ⟨args.sprite_columns * args.sprite_lines - 1, by omega⟩
  rw [hm, List.range_succ_eq_map, List.foldl_cons]
  exact foldl_none_pres _ (fun _ => rfl) _

/-- The specification's palette parsing example input
`"   \n  \n  1 \t2    3"`. -/
def spec_palette_input : List Char :=
  [' ', ' ', ' ', '\n', ' ', ' ', '\n', ' ', ' ', '1', ' ', '\t', '2',
    ' ', ' ', ' ', ' ', '3']

/-! ### Claim theorems: palette parsing -/

/-- C9 counterexample: on the line `1 2` (a missing third channel token)
and on `1 2 300` (an out-of-range token) `parse_palette_file` aborts the
process with a panic — modelled as `none`; there is no recoverable error
value propagated to a caller (the function's type has no error channel),
contradicting the claimed recoverable parse failure. -/
theorem parse_palette_file_panics :
    parse_palette_file ['1', ' ', '2'] = none ∧
    parse_palette_file ['1', ' ', '2', ' ', '3', '0', '0'] = none := by decide

/-- C9 (amended): for every input in which some trimmed non-blank line has
fewer than three whitespace-separated tokens, or one of its first three
tokens is not parseable as a `u8` (non-numeric or outside 0-255), palette
parsing PANICS (modelled `none`) and no palette set is produced — the
failure is a crash, not a recoverable propagated error; on well-formed
input blank lines separate palettes and a trailing non-empty group is
flushed (the specification's example parses to `[[(1,2,3)]]`); and running
sprite-matrix generation with zero palettes panics at the palette draw
(modelled `none`) rather than refusing gracefully. -/
theorem parse_palette_failure_modes :
    (∀ s : List Char,
      (∃ line ∈ (rust_lines s).map rust_trim, ¬line.isEmpty ∧
        ((split_ws line).length < 3 ∨
          ∃ i, i < 3 ∧ ∃ t, (split_ws line).get? i = some t ∧
            from_str_u8 t = none)) →
      parse_palette_file s = none) ∧
    parse_palette_file spec_palette_input = some [[⟨1, 2, 3⟩]] ∧
    (∀ (σ : Type) (ops : RngOps σ) (args : Arguments) (background : Color)
      (rng : σ), 0 < args.sprite_columns * args.sprite_lines →
      generate_sprite_matrix ops args background [] rng = none) := by
  refine ⟨?_, by decide, ?_⟩
  · intro s hbad
    obtain ⟨line, hmem, hne, hb⟩ := hbad
    exact parse_palette_loop_bad _ [] []
      ⟨line, hmem, hne, parse_palette_line_bad line hb⟩
  · intro σ ops args background rng hcells
    exact generate_sprite_matrix_empty ops args background rng hcells

/-- Witness for C9's amended statement: the out-of-range line `1 2 300`
makes the whole parse abort. -/
theorem parse_palette_failure_modes_witness :
    parse_palette_file ['1', ' ', '2', ' ', '3', '0', '0'] = none :=
  parse_palette_failure_modes.1 ['1', ' ', '2', ' ', '3', '0', '0'] (by decide)
